import Mathlib

/-!
Verification development for the tree operations module
(`src/ete4/core/operations.pyx`): rerooting (`set_outgroup`), structural
edit primitives (`insert_intermediate`, `join_branch`, `move`),
ladderization, ultrametric conversion, common-ancestor queries and the
iterative traversal walker.

The mutable node graph of the source is embedded shallowly: a tree is an
inductive value, a node inside a tree is addressed by its list of child
positions from the root (exactly the `node.id` used by the source), and
in-place mutation becomes pure tree surgery at a path.  Branch distances
and supports are rationals (the source uses floats; all the claims below
are about exact arithmetic identities, which ℚ models without rounding).
A node's property dictionary is an insertion-ordered association list,
mirroring Python's `dict` semantics (assignment to an existing key keeps
its slot, assignment to a fresh key appends, `pop` removes).
Operations that can raise return `Except`; the error carries the message
and the whole-tree state at the moment of the raise, so that claims about
"no partial mutation on failure" are expressible.
-/

/-- Property dictionaries: insertion-ordered association lists,
string key → numeric value (the branch properties the core inspects are
all numeric: `dist`, `support`, user branch properties). -/
abbrev Props := List (String × ℚ)

/-- A tree node: display name, property dict, ordered children.
Leaf iff `children = []`.  (Embeds the external node type consumed by
`operations.pyx`: name, props, ordered child list.) -/
inductive ETree : Type where
  | node (name : String) (props : Props) (children : List ETree)

instance : Inhabited ETree := ⟨.node "" [] []⟩

def ETree.name : ETree → String
  | .node n _ _ => n

def ETree.props : ETree → Props
  | .node _ ps _ => ps

def ETree.children : ETree → List ETree
  | .node _ _ cs => cs

@[simp] theorem ETree.name_node (n : String) (ps : Props) (cs : List ETree) :
    (ETree.node n ps cs).name = n := rfl

@[simp] theorem ETree.props_node (n : String) (ps : Props) (cs : List ETree) :
    (ETree.node n ps cs).props = ps := rfl

@[simp] theorem ETree.children_node (n : String) (ps : Props) (cs : List ETree) :
    (ETree.node n ps cs).children = cs := rfl

theorem ETree.eta (t : ETree) : ETree.node t.name t.props t.children = t := by
  cases t
  rfl

/-- `d.get(key)` on a Python dict. -/
def lookupP : Props → String → Option ℚ
  | [], _ => none
  | (k, v) :: ps, key => if k = key then some v else lookupP ps key

/-- `d[key] = v` on a Python dict: replace in place if the key exists,
append otherwise. -/
def setP : Props → String → ℚ → Props
  | [], key, v => [(key, v)]
  | (k, w) :: ps, key, v =>
      if k = key then (k, v) :: ps else (k, w) :: setP ps key v

/-- `d.pop(key, None)` (just the removal part). -/
def eraseP : Props → String → Props
  | [], _ => []
  | (k, v) :: ps, key => if k = key then eraseP ps key else (k, v) :: eraseP ps key

@[simp] theorem lookupP_nil (key : String) : lookupP [] key = none := rfl
@[simp] theorem lookupP_cons (k : String) (v : ℚ) (ps : Props) (key : String) :
    lookupP ((k, v) :: ps) key = if k = key then some v else lookupP ps key := rfl
@[simp] theorem setP_nil (key : String) (v : ℚ) : setP [] key v = [(key, v)] := rfl
@[simp] theorem setP_cons (k : String) (w : ℚ) (ps : Props) (key : String) (v : ℚ) :
    setP ((k, w) :: ps) key v =
      if k = key then (k, v) :: ps else (k, w) :: setP ps key v := rfl
@[simp] theorem eraseP_nil (key : String) : eraseP [] key = [] := rfl
@[simp] theorem eraseP_cons (k : String) (v : ℚ) (ps : Props) (key : String) :
    eraseP ((k, v) :: ps) key =
      if k = key then eraseP ps key else (k, v) :: eraseP ps key := rfl

/-- Setting a key to the value it already has is a no-op (dict semantics). -/
theorem setP_lookup_self (ps : Props) (key : String) (v : ℚ)
    (h : lookupP ps key = some v) : setP ps key v = ps := by
  induction ps with
  | nil => simp at h
  | cons kv ps ih =>
      obtain ⟨k, w⟩ := kv
      by_cases hk : k = key
      · subst hk
        simp at h
        simp [h]
      · simp [hk] at h ⊢
        exact ih h

/-- Overwriting twice keeps only the second write. -/
theorem setP_setP (ps : Props) (key : String) (v w : ℚ) :
    setP (setP ps key v) key w = setP ps key w := by
  induction ps with
  | nil => simp
  | cons kv ps ih =>
      obtain ⟨k, u⟩ := kv
      by_cases hk : k = key
      · simp [hk]
      · simp [hk, ih]

theorem lookupP_setP (ps : Props) (key : String) (v : ℚ) :
    lookupP (setP ps key v) key = some v := by
  induction ps with
  | nil => simp
  | cons kv ps ih =>
      obtain ⟨k, u⟩ := kv
      by_cases hk : k = key <;> simp [hk, ih]

theorem lookupP_setP_ne (ps : Props) (key key' : String) (v : ℚ) (h : key ≠ key') :
    lookupP (setP ps key v) key' = lookupP ps key' := by
  induction ps with
  | nil => simp [h]
  | cons kv ps ih =>
      obtain ⟨k, u⟩ := kv
      by_cases hk : k = key
      · subst hk
        simp [h]
      · simp [hk, ih]

/-- Subtree of `t` at a child-position path (the source's `node.id`
addressing: `[1, 0]` is the first child of the second child of the root).
Total function; out-of-range indices return the `default` tree, and
theorems guard with `validPath`. -/
def subtreeAt : ETree → List ℕ → ETree
  | t, [] => t
  | t, i :: is => subtreeAt (t.children.getD i default) is

@[simp] theorem subtreeAt_nil (t : ETree) : subtreeAt t [] = t := rfl
@[simp] theorem subtreeAt_cons (t : ETree) (i : ℕ) (is : List ℕ) :
    subtreeAt t (i :: is) = subtreeAt (t.children.getD i default) is := rfl

/-- Replace the subtree at a path by a function of it. -/
def replaceAt (t : ETree) (q : List ℕ) (f : ETree → ETree) : ETree :=
  go q t
where
  go : List ℕ → ETree → ETree
  | [], t => f t
  | i :: is, t => .node t.name t.props (t.children.set i (go is (t.children.getD i default)))

@[simp] theorem replaceAt_nil (t : ETree) (f : ETree → ETree) :
    replaceAt t [] f = f t := rfl
theorem replaceAt_cons (t : ETree) (i : ℕ) (is : List ℕ) (f : ETree → ETree) :
    replaceAt t (i :: is) f =
      .node t.name t.props
        (t.children.set i (replaceAt (t.children.getD i default) is f)) := rfl

/-- A path is valid when every index is within bounds. -/
def validPath : ETree → List ℕ → Bool
  | _, [] => true
  | t, i :: is => i < t.children.length && validPath (t.children.getD i default) is

@[simp] theorem validPath_nil (t : ETree) : validPath t [] = true := rfl
@[simp] theorem validPath_cons (t : ETree) (i : ℕ) (is : List ℕ) :
    validPath t (i :: is) =
      (decide (i < t.children.length) && validPath (t.children.getD i default) is) := rfl

/-! ## Rerooting engine: `swap_props`, `rehang`, `insert_intermediate`,
`join_branch`, `assert_root_consistency`, `set_outgroup`, `move`, `remove`. -/

/-- `swap_props(n1, n2, props)`: for each named property, pop it from both
dicts, then write the value coming from the other side (skipping `None`s).
Returns the two updated dicts `(n1.props, n2.props)`. -/
def swapProps : Props → Props → List String → Props × Props
  | ps1, ps2, [] => (ps1, ps2)
  | ps1, ps2, nm :: nms =>
      let p1 := lookupP ps1 nm
      let p2 := lookupP ps2 nm
      let ps1a := eraseP ps1 nm
      let ps2a := eraseP ps2 nm
      let ps2b := match p1 with | some v => ps2a ++ [(nm, v)] | none => ps2a
      let ps1b := match p2 with | some v => ps1a ++ [(nm, v)] | none => ps1a
      swapProps ps1b ps2b nms

@[simp] theorem swapProps_nil (ps1 ps2 : Props) : swapProps ps1 ps2 [] = (ps1, ps2) := rfl

theorem swapProps_cons (ps1 ps2 : Props) (nm : String) (nms : List String) :
    swapProps ps1 ps2 (nm :: nms) =
      swapProps
        (match lookupP ps2 nm with
         | some v => eraseP ps1 nm ++ [(nm, v)] | none => eraseP ps1 nm)
        (match lookupP ps1 nm with
         | some v => eraseP ps2 nm ++ [(nm, v)] | none => eraseP ps2 nm)
        nms := rfl

/-- `rehang(root, child_pos, bprops)`: pop the child at `child_pos`, append
the old root under it, and swap the branch properties
(`dist`, `support`, and `bprops`) across the now-inverted edge.
The popped child (new provisional root) is returned. -/
def rehang (root : ETree) (childPos : ℕ) (bprops : List String) : ETree :=
  let ch := root.children.getD childPos default
  let rest := root.children.eraseIdx childPos
  let sw := swapProps root.props ch.props (["dist", "support"] ++ bprops)
  .node ch.name sw.2 (ch.children ++ [.node root.name sw.1 rest])

/-- The `for child_pos in positions: root = rehang(root, child_pos, bprops)`
loop of `set_outgroup`. -/
def rehangAll (t : ETree) (positions : List ℕ) (bprops : List String) : ETree :=
  positions.foldl (fun r p => rehang r p bprops) t

@[simp] theorem rehangAll_nil (t : ETree) (b : List String) : rehangAll t [] b = t := rfl
@[simp] theorem rehangAll_cons (t : ETree) (p : ℕ) (ps : List ℕ) (b : List String) :
    rehangAll t (p :: ps) b = rehangAll (rehang t p b) ps b := rfl

/-- `insert_intermediate(node, intermediate, bprops)`, viewed from `node`'s
slot in its parent: the returned tree replaces `node` in place.  `node`'s
`dist` (when present) is halved onto both nodes, and `support` plus the
`bprops` are copied (not moved) from `node` onto `intermediate`, which
receives `node` as an appended child. -/
def wrapIntermediate (nd intermediate : ETree) (bprops : List String) : ETree :=
  let pair : ETree × ETree :=
    match lookupP nd.props "dist" with
    | some d =>
        (.node nd.name (setP nd.props "dist" (d / 2)) nd.children,
         .node intermediate.name (setP intermediate.props "dist" (d / 2)) intermediate.children)
    | none => (nd, intermediate)
  let mprops := ("support" :: bprops).foldl
      (fun acc pr =>
        match lookupP pair.1.props pr with
        | some v => setP acc pr v
        | none => acc) pair.2.props
  .node pair.2.name mprops (pair.2.children ++ [pair.1])

/-- The child-side result of `join_branch(node)`: the only child, with
`node`'s `dist` (when present) added onto its own
(`child.dist = (child.dist or 0) + node.dist`). -/
def joinedChild (s : ETree) : ETree :=
  let c := s.children.getD 0 default
  match lookupP s.props "dist" with
  | some d => .node c.name (setP c.props "dist" ((lookupP c.props "dist").getD 0 + d)) c.children
  | none => c

/-- `join_branch(node)` for the node at path `q`: substitute the node by its
only child in its parent's child list.  Errors (carrying the untouched
whole-tree state) when the node does not have exactly one child, or when
node and child both carry a `support` and they differ. -/
def joinBranchAt (t : ETree) (q : List ℕ) : Except (String × ETree) ETree :=
  let s := subtreeAt t q
  let c := s.children.getD 0 default
  if s.children.length ≠ 1 then .error ("cannot join branch with multiple children", t)
  else if (lookupP s.props "support").isSome ∧ (lookupP c.props "support").isSome ∧
      lookupP s.props "support" ≠ lookupP c.props "support" then
    .error ("cannot join branches with different support", t)
  else .ok (replaceAt t q joinedChild)

/-- `assert_root_consistency(root, bprops)`: root `dist` is 0 or unset, the
root carries neither `support` nor any of the `bprops`, and if the root has
exactly two children their `support` values (as optional values) agree. -/
def rootConsistent (t : ETree) (bprops : List String) : Bool :=
  decide (lookupP t.props "dist" = none ∨ lookupP t.props "dist" = some 0)
  && ("support" :: bprops).all (fun pr => (lookupP t.props pr).isNone)
  && (if t.children.length = 2 then
        decide (lookupP (t.children.getD 0 default).props "support"
          = lookupP (t.children.getD 1 default).props "support")
      else true)

/-- Descend `k` steps, always into the last child (where the rehang loop
leaves the `replacement` node). -/
def lastDescend : ETree → ℕ → ETree
  | t, 0 => t
  | t, k + 1 => lastDescend (t.children.getD (t.children.length - 1) default) k

@[simp] theorem lastDescend_zero (t : ETree) : lastDescend t 0 = t := rfl
@[simp] theorem lastDescend_succ (t : ETree) (k : ℕ) :
    lastDescend t (k + 1) =
      lastDescend (t.children.getD (t.children.length - 1) default) k := rfl

/-- The path (child positions) corresponding to `lastDescend`. -/
def lastPathIdx : ETree → ℕ → List ℕ
  | _, 0 => []
  | t, k + 1 =>
      (t.children.length - 1) :: lastPathIdx (t.children.getD (t.children.length - 1) default) k

@[simp] theorem lastPathIdx_zero (t : ETree) : lastPathIdx t 0 = [] := rfl
@[simp] theorem lastPathIdx_succ (t : ETree) (k : ℕ) :
    lastPathIdx t (k + 1) =
      (t.children.length - 1) ::
        lastPathIdx (t.children.getD (t.children.length - 1) default) k := rfl

/-- `set_outgroup(node, bprops)` with the outgroup node given by its child
positions from the root (`positions = node.id`; `[] ` means the root
itself).  Mirrors the source step by step:
root-consistency assertion, non-root assertion, move the root's children
onto a fresh `replacement` node, `insert_intermediate(node, old_root)`,
the `rehang` loop along `positions`, and the final
`join_branch(replacement)` when `replacement` is left with one child.
Errors carry the whole-tree state at the moment of the raise. -/
def set_outgroup (t : ETree) (positions : List ℕ) (bprops : List String) :
    Except (String × ETree) ETree :=
  if ¬ rootConsistent t bprops then .error ("root inconsistency assertion failed", t)
  else if positions = [] then .error ("cannot set the absolute tree root as outgroup", t)
  else
    let shell : ETree := .node t.name t.props []
    let t0 : ETree :=
      replaceAt (.node "" [] t.children) positions (fun nd => wrapIntermediate nd shell bprops)
    let t2 := rehangAll t0 positions bprops
    let k := positions.length
    if (lastDescend t2 k).children.length = 1 then joinBranchAt t2 (lastPathIdx t2 k)
    else .ok t2

/-- `move(node, shift)` with the node given by its path: swap the node with
the sibling `(pos_old + shift) % len(siblings)` positions over.  Fails on
the root. -/
def move (t : ETree) (path : List ℕ) (shift : ℤ) : Except (String × ETree) ETree :=
  match path with
  | [] => .error ("cannot move the root", t)
  | _ :: _ =>
      .ok (replaceAt t path.dropLast (fun parent =>
        let i := path.getLastD 0
        let j := (((i : ℤ) + shift) % (parent.children.length : ℤ)).toNat
        .node parent.name parent.props
          ((parent.children.set i (parent.children.getD j default)).set j
            (parent.children.getD i default))))

/-- `remove(node)`: detach the node from its parent.  Fails on the root. -/
def removeNode (t : ETree) (path : List ℕ) : Except (String × ETree) ETree :=
  match path with
  | [] => .error ("cannot remove the root", t)
  | _ :: _ =>
      .ok (replaceAt t path.dropLast (fun parent =>
        .node parent.name parent.props (parent.children.eraseIdx (path.getLastD 0))))

/-! ## Observables used by the claims: total branch length, per-leaf
root-path distance sums. -/

mutual
/-- Total summed `dist` over all nodes of the tree (missing `dist` counts 0). -/
def sumDists : ETree → ℚ
  | .node _ ps cs => (lookupP ps "dist").getD 0 + sumDistsL cs
def sumDistsL : List ETree → ℚ
  | [] => 0
  | c :: cs => sumDists c + sumDistsL cs
end

mutual
/-- `(leaf name, sum of dist along the root-to-leaf path)` for every leaf,
in left-to-right order; `acc` is the distance already accumulated above. -/
def leafDepthsFrom : ℚ → ETree → List (String × ℚ)
  | acc, .node n ps cs =>
      let d := acc + (lookupP ps "dist").getD 0
      match cs with
      | [] => [(n, d)]
      | c :: cs' => leafDepthsFromL d (c :: cs')
def leafDepthsFromL : ℚ → List ETree → List (String × ℚ)
  | _, [] => []
  | acc, c :: cs => leafDepthsFrom acc c ++ leafDepthsFromL acc cs
end

/-- Leaf depths of the whole tree. -/
def leafDepthsNamed (t : ETree) : List (String × ℚ) := leafDepthsFrom 0 t

/-! ## Structural lemmas: path surgery, the rehang loop, and where it
leaves the `replacement` node. -/

theorem getD_set_self {α : Type} [Inhabited α] (l : List α) (i : ℕ) (x : α)
    (h : i < l.length) : (l.set i x).getD i default = x := by
  rw [List.getD_eq_getElem?_getD, List.getElem?_set]
  simp [h]

theorem getD_set_ne {α : Type} [Inhabited α] (l : List α) (i j : ℕ) (x : α)
    (h : i ≠ j) : (l.set i x).getD j default = l.getD j default := by
  rw [List.getD_eq_getElem?_getD, List.getElem?_set]
  simp [h, List.getD_eq_getElem?_getD]

theorem getD_concat_length {α : Type} [Inhabited α] (l : List α) (x : α) :
    (l ++ [x]).getD l.length default = x := by
  rw [List.getD_append_right _ _ _ _ (le_refl _)]
  simp

theorem validPath_replaceAt (q : List ℕ) : ∀ (t : ETree) (f : ETree → ETree),
    validPath t q = true → validPath (replaceAt t q f) q = true := by
  induction q with
  | nil => intro t f _; simp
  | cons i is ih =>
      intro t f h
      simp only [validPath_cons, Bool.and_eq_true, decide_eq_true_eq] at h
      obtain ⟨hi, hrest⟩ := h
      rw [replaceAt_cons]
      simp only [validPath_cons, ETree.children_node, Bool.and_eq_true, decide_eq_true_eq]
      constructor
      · simpa [List.length_set] using hi
      · rw [getD_set_self _ _ _ hi]
        exact ih _ f hrest

theorem subtreeAt_replaceAt (q : List ℕ) : ∀ (t : ETree) (f : ETree → ETree),
    validPath t q = true → subtreeAt (replaceAt t q f) q = f (subtreeAt t q) := by
  induction q with
  | nil => intro t f _; simp
  | cons i is ih =>
      intro t f h
      simp only [validPath_cons, Bool.and_eq_true, decide_eq_true_eq] at h
      obtain ⟨hi, hrest⟩ := h
      rw [replaceAt_cons]
      simp only [subtreeAt_cons, ETree.children_node]
      rw [getD_set_self _ _ _ hi]
      exact ih _ f hrest

/-- `subtreeAt` on a nonempty path only looks at the children. -/
theorem subtreeAt_children (t t' : ETree) (i : ℕ) (is : List ℕ)
    (h : t.children = t'.children) :
    subtreeAt t (i :: is) = subtreeAt t' (i :: is) := by
  simp [subtreeAt_cons, h]

/-- `validPath` on a nonempty path only looks at the children. -/
theorem validPath_children (t t' : ETree) (i : ℕ) (is : List ℕ)
    (h : t.children = t'.children) :
    validPath t (i :: is) = validPath t' (i :: is) := by
  simp [validPath_cons, h]

theorem children_rehang (t : ETree) (p : ℕ) (b : List String) :
    (rehang t p b).children =
      (t.children.getD p default).children ++
        [.node t.name (swapProps t.props (t.children.getD p default).props
          (["dist", "support"] ++ b)).1 (t.children.eraseIdx p)] := rfl

theorem name_rehang (t : ETree) (p : ℕ) (b : List String) :
    (rehang t p b).name = (t.children.getD p default).name := rfl

/-- Rehanging at `p` does not disturb the subtree at any deeper valid path. -/
theorem subtreeAt_rehang (t : ETree) (p j : ℕ) (rest : List ℕ) (b : List String)
    (h : validPath t (p :: j :: rest) = true) :
    subtreeAt (rehang t p b) (j :: rest) = subtreeAt t (p :: j :: rest) := by
  simp only [validPath_cons, Bool.and_eq_true, decide_eq_true_eq] at h
  obtain ⟨hp, hj, _⟩ := h
  simp only [subtreeAt_cons, children_rehang]
  rw [List.getD_append _ _ _ _ hj]

theorem validPath_rehang (t : ETree) (p j : ℕ) (rest : List ℕ) (b : List String)
    (h : validPath t (p :: j :: rest) = true) :
    validPath (rehang t p b) (j :: rest) = true := by
  simp only [validPath_cons, Bool.and_eq_true, decide_eq_true_eq] at h
  obtain ⟨hp, hj, hrest⟩ := h
  simp only [validPath_cons, children_rehang, Bool.and_eq_true, decide_eq_true_eq]
  refine ⟨by simpa using Nat.lt_succ_of_lt hj, ?_⟩
  rw [List.getD_append _ _ _ _ hj]
  exact hrest

/-- Shape of the provisional root after the whole rehang loop: it is the
node that sat at the rerooting path, with one extra (last) child holding
everything else. -/
theorem rehangAll_root_shape (b : List String) :
    ∀ (ps : List ℕ) (t : ETree) (p : ℕ), validPath t (p :: ps) = true →
    ∃ pr junk, rehangAll t (p :: ps) b =
      .node (subtreeAt t (p :: ps)).name pr ((subtreeAt t (p :: ps)).children ++ [junk]) := by
  intro ps
  induction ps with
  | nil =>
      intro t p _
      exact ⟨_, _, rfl⟩
  | cons j rest ih =>
      intro t p h
      have hv : validPath (rehang t p b) (j :: rest) = true := validPath_rehang t p j rest b h
      obtain ⟨pr, junk, hshape⟩ := ih (rehang t p b) j hv
      refine ⟨pr, junk, ?_⟩
      rw [rehangAll_cons, hshape, subtreeAt_rehang t p j rest b h]

/-- Stepping to the last child commutes to the back of `lastDescend`. -/
theorem lastDescend_succ_back (k : ℕ) : ∀ (t : ETree),
    lastDescend t (k + 1) =
      (lastDescend t k).children.getD ((lastDescend t k).children.length - 1) default := by
  induction k with
  | zero => intro t; rfl
  | succ k ih =>
      intro t
      rw [lastDescend_succ, ih, lastDescend_succ]

/-- After the rehang loop over `p :: ps`, descending always-last for
`ps.length + 1` steps lands exactly on the node that was the loop's
starting root, stripped of the child it lost in the first iteration and
with its branch properties swapped against that child's. -/
theorem rehangAll_bottom (b : List String) :
    ∀ (ps : List ℕ) (t : ETree) (p : ℕ), validPath t (p :: ps) = true →
    lastDescend (rehangAll t (p :: ps) b) (ps.length + 1) =
      .node t.name
        (swapProps t.props (t.children.getD p default).props (["dist", "support"] ++ b)).1
        (t.children.eraseIdx p) := by
  intro ps
  induction ps with
  | nil =>
      intro t p _
      rw [rehangAll_cons, rehangAll_nil]
      simp only [List.length_nil, Nat.zero_add, lastDescend_succ, lastDescend_zero,
        children_rehang]
      rw [List.length_append, List.length_singleton, Nat.add_sub_cancel]
      exact getD_concat_length _ _
  | cons j rest ih =>
      intro t p h
      simp only [validPath_cons, Bool.and_eq_true, decide_eq_true_eq] at h
      obtain ⟨hp, hj, hrest⟩ := h
      have hv : validPath (rehang t p b) (j :: rest) = true := by
        apply validPath_rehang
        simp only [validPath_cons, Bool.and_eq_true, decide_eq_true_eq]
        exact ⟨hp, hj, hrest⟩
      rw [rehangAll_cons]
      have hlen : (j :: rest).length + 1 = (rest.length + 1) + 1 := by simp
      rw [List.length_cons, lastDescend_succ_back, ih (rehang t p b) j hv]
      simp only [ETree.children_node, children_rehang]
      rw [List.eraseIdx_append_of_lt_length hj]
      have hlen2 : ((t.children.getD p default).children.eraseIdx j ++
          [ETree.node t.name
            (swapProps t.props (t.children.getD p default).props (["dist", "support"] ++ b)).1
            (t.children.eraseIdx p)]).length - 1 =
          ((t.children.getD p default).children.eraseIdx j).length := by
        simp
      rw [hlen2]
      exact getD_concat_length _ _

theorem subtreeAt_lastPathIdx (k : ℕ) : ∀ (t : ETree),
    subtreeAt t (lastPathIdx t k) = lastDescend t k := by
  induction k with
  | zero => intro t; rfl
  | succ k ih =>
      intro t
      rw [lastPathIdx_succ, lastDescend_succ, subtreeAt_cons]
      exact ih _

/-! ## Property-dict lemmas for `swap_props`. -/

theorem lookupP_append (l1 l2 : Props) (k : String) :
    lookupP (l1 ++ l2) k =
      match lookupP l1 k with
      | some v => some v
      | none => lookupP l2 k := by
  induction l1 with
  | nil => simp
  | cons kv l1 ih =>
      obtain ⟨k', v⟩ := kv
      by_cases hk : k' = k <;> simp [hk, ih]

theorem lookupP_eraseP_ne (l : Props) (k' k : String) (h : k' ≠ k) :
    lookupP (eraseP l k') k = lookupP l k := by
  induction l with
  | nil => simp
  | cons kv l ih =>
      obtain ⟨k0, v⟩ := kv
      by_cases h0 : k0 = k'
      · subst h0
        simp [h, ih]
      · by_cases h1 : k0 = k
        · subst h1
          simp [h0]
        · simp [h0, h1, ih]

theorem lookupP_eraseP_self (l : Props) (k : String) :
    lookupP (eraseP l k) k = none := by
  induction l with
  | nil => simp
  | cons kv l ih =>
      obtain ⟨k0, v⟩ := kv
      by_cases h0 : k0 = k <;> simp [h0, ih]

/-- Lookup in the dict produced by one pop/reinsert step of `swap_props`:
at the popped key the value now comes from the other side, other keys are
untouched. -/
theorem lookupP_swapStep (a c : Props) (nm k : String) :
    lookupP
      (match lookupP c nm with
       | some v => eraseP a nm ++ [(nm, v)]
       | none => eraseP a nm) k =
      if k = nm then lookupP c nm else lookupP a k := by
  by_cases hk : k = nm
  · subst hk
    cases hc : lookupP c k <;>
      simp [lookupP_append, lookupP_eraseP_self, hc]
  · have hne : nm ≠ k := fun h => hk h.symm
    cases hc : lookupP c nm <;>
      cases ha : lookupP a k <;>
        simp [lookupP_append, lookupP_eraseP_ne a nm k hne, hk, hne, hc, ha]

theorem lookupP_swapProps (nms : List String) : ∀ (a c : Props) (k : String),
    nms.Nodup →
    lookupP (swapProps a c nms).1 k = (if k ∈ nms then lookupP c k else lookupP a k) ∧
    lookupP (swapProps a c nms).2 k = (if k ∈ nms then lookupP a k else lookupP c k) := by
  induction nms with
  | nil => intro a c k _; simp
  | cons nm nms ih =>
      intro a c k hnd
      rw [List.nodup_cons] at hnd
      obtain ⟨hnotin, hnd⟩ := hnd
      rw [swapProps_cons]
      by_cases hk : k = nm
      · subst hk
        constructor
        · rw [(ih _ _ k hnd).1]
          simp [hnotin, lookupP_swapStep, List.mem_cons]
        · rw [(ih _ _ k hnd).2]
          simp [hnotin, lookupP_swapStep, List.mem_cons]
      · constructor
        · rw [(ih _ _ k hnd).1]
          by_cases hin : k ∈ nms <;>
            simp [hin, hk, lookupP_swapStep, List.mem_cons]
        · rw [(ih _ _ k hnd).2]
          by_cases hin : k ∈ nms <;>
            simp [hin, hk, lookupP_swapStep, List.mem_cons]

/-! ## Total-branch-length bookkeeping. -/

theorem sumDistsL_nil : sumDistsL [] = 0 := by simp [sumDistsL]

theorem sumDistsL_cons (c : ETree) (cs : List ETree) :
    sumDistsL (c :: cs) = sumDists c + sumDistsL cs := by simp [sumDistsL]

theorem sumDists_node (n : String) (ps : Props) (cs : List ETree) :
    sumDists (.node n ps cs) = (lookupP ps "dist").getD 0 + sumDistsL cs := by
  simp [sumDists]

theorem sumDists_def (t : ETree) :
    sumDists t = (lookupP t.props "dist").getD 0 + sumDistsL t.children := by
  cases t
  exact sumDists_node _ _ _

theorem sumDistsL_append (l1 l2 : List ETree) :
    sumDistsL (l1 ++ l2) = sumDistsL l1 + sumDistsL l2 := by
  induction l1 with
  | nil => simp [sumDistsL_nil]
  | cons c cs ih => simp [sumDistsL_cons, ih]; ring

theorem sumDistsL_eraseIdx (l : List ETree) : ∀ (i : ℕ), i < l.length →
    sumDistsL l = sumDists (l.getD i default) + sumDistsL (l.eraseIdx i) := by
  induction l with
  | nil => intro i h; simp at h
  | cons c cs ih =>
      intro i h
      cases i with
      | zero => simp [sumDistsL_cons, List.eraseIdx]
      | succ i =>
          simp only [List.length_cons, Nat.succ_lt_succ_iff] at h
          simp only [sumDistsL_cons, List.eraseIdx, List.getD_cons_succ]
          rw [ih i h]
          ring

theorem sumDistsL_set (l : List ETree) : ∀ (i : ℕ) (x : ETree), i < l.length →
    sumDistsL (l.set i x) =
      sumDistsL l - sumDists (l.getD i default) + sumDists x := by
  induction l with
  | nil => intro i x h; simp at h
  | cons c cs ih =>
      intro i x h
      cases i with
      | zero => simp [sumDistsL_cons]; ring
      | succ i =>
          simp only [List.length_cons, Nat.succ_lt_succ_iff] at h
          simp only [List.set_cons_succ, sumDistsL_cons, List.getD_cons_succ]
          rw [ih i x h]
          ring

theorem sumDists_replaceAt (q : List ℕ) : ∀ (t : ETree) (f : ETree → ETree),
    validPath t q = true →
    sumDists (replaceAt t q f) =
      sumDists t - sumDists (subtreeAt t q) + sumDists (f (subtreeAt t q)) := by
  induction q with
  | nil => intro t f _; simp
  | cons i is ih =>
      intro t f h
      simp only [validPath_cons, Bool.and_eq_true, decide_eq_true_eq] at h
      obtain ⟨hi, hrest⟩ := h
      rw [replaceAt_cons, sumDists_node, sumDistsL_set _ _ _ hi, ih _ f hrest,
        subtreeAt_cons, sumDists_def t]
      ring

/-! ## The shape of one `insert_intermediate` wrap, and sums through the
individual rerooting steps. -/

/-- What the outgroup node itself looks like after
`insert_intermediate(node, old_root)`: its `dist` is halved in place. -/
def halvedOutgroup (nd : ETree) : ETree :=
  match lookupP nd.props "dist" with
  | some d => .node nd.name (setP nd.props "dist" (d / 2)) nd.children
  | none => nd

theorem wrapIntermediate_name (nd shell : ETree) (b : List String) :
    (wrapIntermediate nd shell b).name = shell.name := by
  unfold wrapIntermediate
  cases lookupP nd.props "dist" <;> simp

theorem wrapIntermediate_children (nd shell : ETree) (b : List String)
    (h : shell.children = []) :
    (wrapIntermediate nd shell b).children = [halvedOutgroup nd] := by
  unfold wrapIntermediate halvedOutgroup
  cases lookupP nd.props "dist" <;> simp [h]

theorem dist_ne_support : ("dist" : String) ≠ "support" := by decide

theorem support_ne_dist : ("support" : String) ≠ "dist" := by decide

theorem wrapIntermediate_support (nd shell : ETree)
    (hs : lookupP shell.props "support" = none) :
    lookupP (wrapIntermediate nd shell []).props "support" = lookupP nd.props "support" := by
  unfold wrapIntermediate
  cases hd : lookupP nd.props "dist" <;>
    cases hsup : lookupP nd.props "support" <;>
      simp [hs, hsup, lookupP_setP, lookupP_setP_ne _ _ _ _ dist_ne_support]

theorem wrapIntermediate_sumDists (nd shell : ETree)
    (hc : shell.children = [])
    (hd : lookupP shell.props "dist" = none ∨ lookupP shell.props "dist" = some 0) :
    sumDists (wrapIntermediate nd shell []) = sumDists nd := by
  have hd0 : (lookupP shell.props "dist").getD 0 = 0 := by
    rcases hd with h | h <;> simp [h]
  unfold wrapIntermediate
  cases hdn : lookupP nd.props "dist" <;>
    cases hsup : lookupP nd.props "support" <;>
      simp only [hc, hdn, hsup, List.nil_append, List.foldl_cons, List.foldl_nil,
        ETree.props_node, ETree.children_node, lookupP_setP,
        lookupP_setP_ne _ _ _ _ dist_ne_support, lookupP_setP_ne _ _ _ _ support_ne_dist,
        sumDists_node, sumDistsL_cons, sumDistsL_nil, Option.getD_some, Option.getD_none,
        hd0, sumDists_def nd] <;>
      ring

theorem eraseIdx_set {α : Type} (l : List α) : ∀ (i : ℕ) (x : α),
    (l.set i x).eraseIdx i = l.eraseIdx i := by
  induction l with
  | nil => intro i x; simp
  | cons c cs ih =>
      intro i x
      cases i with
      | zero => simp [List.eraseIdx]
      | succ i => simp [List.eraseIdx, ih]

theorem sumDists_rehang (t : ETree) (p : ℕ) (h : p < t.children.length) :
    sumDists (rehang t p []) = sumDists t := by
  have hsw := lookupP_swapProps ["dist", "support"] t.props
    (t.children.getD p default).props "dist" (by decide)
  have hmem : ("dist" : String) ∈ ["dist", "support"] := by decide
  unfold rehang
  rw [List.append_nil]
  rw [sumDists_node, sumDistsL_append, sumDistsL_cons, sumDistsL_nil, sumDists_node,
    sumDists_def t, sumDistsL_eraseIdx t.children p h, sumDists_def (t.children.getD p default)]
  rw [hsw.1, hsw.2]
  simp only [hmem, if_pos]
  ring

theorem sumDists_rehangAll : ∀ (ps : List ℕ) (t : ETree) (p : ℕ),
    validPath t (p :: ps) = true →
    sumDists (rehangAll t (p :: ps) []) = sumDists t := by
  intro ps
  induction ps with
  | nil =>
      intro t p h
      simp only [validPath_cons, Bool.and_eq_true, decide_eq_true_eq] at h
      rw [rehangAll_cons, rehangAll_nil]
      exact sumDists_rehang t p h.1
  | cons j rest ih =>
      intro t p h
      have hp : p < t.children.length := by
        simp only [validPath_cons, Bool.and_eq_true, decide_eq_true_eq] at h
        exact h.1
      rw [rehangAll_cons, ih (rehang t p []) j (validPath_rehang t p j rest [] h)]
      exact sumDists_rehang t p hp

theorem sumDists_joinedChild (s : ETree) (h : s.children.length = 1) :
    sumDists (joinedChild s) = sumDists s := by
  obtain ⟨c, hc⟩ := List.length_eq_one.mp h
  unfold joinedChild
  rw [sumDists_def s, hc]
  cases hd : lookupP s.props "dist" <;>
    cases hcd : lookupP c.props "dist" <;>
      simp only [List.getD_cons_zero, hd, hcd, sumDists_node, sumDistsL_cons, sumDistsL_nil,
        lookupP_setP, Option.getD_some, Option.getD_none, sumDists_def c] <;>
      ring

/-- Along the always-last path left by the rehang loop, every level down to
the `replacement` node has children. -/
theorem rehangAll_chain_ne (b : List String) :
    ∀ (ps : List ℕ) (t : ETree) (p : ℕ), validPath t (p :: ps) = true →
    ∀ m, m ≤ ps.length → (lastDescend (rehangAll t (p :: ps) b) m).children ≠ [] := by
  intro ps
  induction ps with
  | nil =>
      intro t p _ m hm
      have hm0 : m = 0 := Nat.le_zero.mp (by simpa using hm)
      subst hm0
      rw [rehangAll_cons, rehangAll_nil, lastDescend_zero]
      simp [children_rehang]
  | cons j rest ih =>
      intro t p h m hm
      simp only [validPath_cons, Bool.and_eq_true, decide_eq_true_eq] at h
      obtain ⟨hp, hj, hrest⟩ := h
      have hv : validPath (rehang t p b) (j :: rest) = true := by
        apply validPath_rehang
        simp only [validPath_cons, Bool.and_eq_true, decide_eq_true_eq]
        exact ⟨hp, hj, hrest⟩
      rw [rehangAll_cons]
      rcases Nat.lt_or_ge m (rest.length + 1) with hlt | hge
      · exact ih (rehang t p b) j hv m (Nat.lt_succ_iff.mp hlt)
      · have hme : m = rest.length + 1 := le_antisymm (by simpa using hm) hge
        subst hme
        rw [show rest.length + 1 = rest.length + 1 from rfl,
          rehangAll_bottom b rest (rehang t p b) j hv]
        simp only [ETree.children_node, children_rehang]
        rw [List.eraseIdx_append_of_lt_length hj]
        simp

theorem validPath_lastPathIdx (k : ℕ) : ∀ (t : ETree),
    (∀ m, m < k → (lastDescend t m).children ≠ []) →
    validPath t (lastPathIdx t k) = true := by
  induction k with
  | zero => intro t _; simp
  | succ k ih =>
      intro t h
      have h0 : t.children ≠ [] := by
        have := h 0 (Nat.succ_pos k)
        simpa using this
      have hlen : 0 < t.children.length := List.length_pos.mpr h0
      rw [lastPathIdx_succ]
      simp only [validPath_cons, Bool.and_eq_true, decide_eq_true_eq]
      refine ⟨Nat.sub_lt hlen Nat.one_pos, ?_⟩
      apply ih
      intro m hm
      have := h (m + 1) (Nat.succ_lt_succ hm)
      rwa [lastDescend_succ] at this

/-! ## Putting `set_outgroup` together. -/

/-- The fresh `replacement` node holding the old root's children. -/
def sogBase (t : ETree) : ETree := .node "" [] t.children

/-- The old root, childless, about to be inserted above the outgroup. -/
def sogShell (t : ETree) : ETree := .node t.name t.props []

/-- Tree state after `insert_intermediate(node, old_root)`. -/
def sogT0 (t : ETree) (q : List ℕ) : ETree :=
  replaceAt (sogBase t) q (fun nd => wrapIntermediate nd (sogShell t) [])

/-- Tree state after the whole rehang loop. -/
def sogT2 (t : ETree) (q : List ℕ) : ETree := rehangAll (sogT0 t q) q []

theorem set_outgroup_eq (t : ETree) (q : List ℕ) (hq : q ≠ [])
    (hc : rootConsistent t [] = true) :
    set_outgroup t q [] =
      if (lastDescend (sogT2 t q) q.length).children.length = 1 then
        joinBranchAt (sogT2 t q) (lastPathIdx (sogT2 t q) q.length)
      else .ok (sogT2 t q) := by
  unfold set_outgroup sogT2 sogT0 sogBase sogShell
  rw [if_neg (by simp [hc]), if_neg hq]

theorem validPath_sogT0 (t : ETree) (q : List ℕ) (i : ℕ) (is : List ℕ) (hq : q = i :: is)
    (hv : validPath t q = true) : validPath (sogT0 t q) q = true := by
  subst hq
  apply validPath_replaceAt
  rwa [validPath_children (sogBase t) t i is rfl]

theorem subtreeAt_sogT0 (t : ETree) (q : List ℕ) (i : ℕ) (is : List ℕ) (hq : q = i :: is)
    (hv : validPath t q = true) :
    subtreeAt (sogT0 t q) q = wrapIntermediate (subtreeAt t q) (sogShell t) [] := by
  subst hq
  unfold sogT0
  rw [subtreeAt_replaceAt _ _ _ (by rwa [validPath_children (sogBase t) t i is rfl]),
    subtreeAt_children (sogBase t) t i is rfl]

/-- The root of the rehanged tree: old root's name, with the halved
outgroup as first child and exactly one further child. -/
theorem sogT2_shape (t : ETree) (p : ℕ) (ps : List ℕ)
    (hv : validPath t (p :: ps) = true) :
    ∃ pr junk, sogT2 t (p :: ps) =
      .node t.name pr [halvedOutgroup (subtreeAt t (p :: ps)), junk] := by
  obtain ⟨pr, junk, hshape⟩ :=
    rehangAll_root_shape [] ps (sogT0 t (p :: ps)) p (validPath_sogT0 t _ p ps rfl hv)
  refine ⟨pr, junk, ?_⟩
  unfold sogT2
  rw [hshape, subtreeAt_sogT0 t _ p ps rfl hv,
    wrapIntermediate_name (subtreeAt t (p :: ps)) (sogShell t) [],
    wrapIntermediate_children (subtreeAt t (p :: ps)) (sogShell t) [] (by rfl)]
  rfl

theorem sogT0_children (t : ETree) (p : ℕ) (ps : List ℕ) :
    (sogT0 t (p :: ps)).children =
      t.children.set p
        (replaceAt (t.children.getD p default) ps
          (fun nd => wrapIntermediate nd (sogShell t) [])) := by
  unfold sogT0 sogBase
  rw [replaceAt_cons]
  rfl

theorem sogT0_props (t : ETree) (p : ℕ) (ps : List ℕ) :
    (sogT0 t (p :: ps)).props = [] := by
  unfold sogT0 sogBase
  rw [replaceAt_cons]
  rfl

theorem sogT0_name (t : ETree) (p : ℕ) (ps : List ℕ) :
    (sogT0 t (p :: ps)).name = "" := by
  unfold sogT0 sogBase
  rw [replaceAt_cons]
  rfl

/-- Where the rehang loop leaves the `replacement` node: children are the
old root's children minus the branch towards the outgroup, and its
branch properties came from the child it was rehung under. -/
theorem sogBottom (t : ETree) (p : ℕ) (ps : List ℕ)
    (hv : validPath t (p :: ps) = true) :
    lastDescend (sogT2 t (p :: ps)) (ps.length + 1) =
      .node ""
        (swapProps []
          (replaceAt (t.children.getD p default) ps
            (fun nd => wrapIntermediate nd (sogShell t) [])).props
          (["dist", "support"] ++ [])).1
        (t.children.eraseIdx p) := by
  have hp : p < t.children.length := by
    simp only [validPath_cons, Bool.and_eq_true, decide_eq_true_eq] at hv
    exact hv.1
  have hb := rehangAll_bottom [] ps (sogT0 t (p :: ps)) p (validPath_sogT0 t _ p ps rfl hv)
  unfold sogT2
  rw [hb, sogT0_name, sogT0_props, sogT0_children]
  rw [getD_set_self _ _ _ (by simpa using hp), eraseIdx_set]

theorem sub_add_cancel_q (a b : ℚ) : a - b + b = a := by ring

/-- Master description of a successful `set_outgroup` (with no extra branch
properties): under a valid non-root outgroup path and a consistent root,
the call succeeds; the resulting root carries the old root's name (the
source reuses the old root node as the new root), its first child is the
outgroup with `dist` halved, and the total branch length is unchanged. -/
theorem set_outgroup_ok (t : ETree) (p : ℕ) (ps : List ℕ)
    (hv : validPath t (p :: ps) = true)
    (hc : rootConsistent t [] = true) :
    ∃ res, set_outgroup t (p :: ps) [] = .ok res ∧
      res.name = t.name ∧
      res.children.getD 0 default = halvedOutgroup (subtreeAt t (p :: ps)) ∧
      sumDists res = sumDists t := by
  have hc' := hc
  unfold rootConsistent at hc'
  simp only [Bool.and_eq_true, decide_eq_true_eq, List.all_cons, List.all_nil,
    Bool.and_true, Option.isNone_iff_eq_none] at hc'
  obtain ⟨⟨hcd, hcs⟩, hc2⟩ := hc'
  have hcd0 : (lookupP t.props "dist").getD 0 = 0 := by
    rcases hcd with h | h <;> simp [h]
  have hp : p < t.children.length := by
    simp only [validPath_cons, Bool.and_eq_true, decide_eq_true_eq] at hv
    exact hv.1
  have hsumT2 : sumDists (sogT2 t (p :: ps)) = sumDists t := by
    unfold sogT2
    rw [sumDists_rehangAll ps _ p (validPath_sogT0 t _ p ps rfl hv)]
    unfold sogT0
    have hbase : validPath (sogBase t) (p :: ps) = true := by
      rwa [validPath_children (sogBase t) t p ps rfl]
    rw [sumDists_replaceAt _ _ _ hbase, subtreeAt_children (sogBase t) t p ps rfl,
      wrapIntermediate_sumDists (subtreeAt t (p :: ps)) (sogShell t) (by rfl) hcd,
      sub_add_cancel_q]
    unfold sogBase
    rw [sumDists_node, sumDists_def t, hcd0]
    simp
  obtain ⟨pr, junk, hshape⟩ := sogT2_shape t p ps hv
  have hbot := sogBottom t p ps hv
  have hbotch : (lastDescend (sogT2 t (p :: ps)) (ps.length + 1)).children
      = t.children.eraseIdx p := by
    rw [hbot]
    rfl
  rw [set_outgroup_eq t (p :: ps) (by simp) hc]
  simp only [List.length_cons]
  by_cases hguard : (lastDescend (sogT2 t (p :: ps)) (ps.length + 1)).children.length = 1
  · -- the degenerate `replacement` is spliced out by `join_branch`
    rw [if_pos hguard]
    have hlen2 : t.children.length = 2 := by
      rw [hbotch, List.length_eraseIdx, if_pos hp] at hguard
      omega
    have hc2' : lookupP (t.children.getD 0 default).props "support"
        = lookupP (t.children.getD 1 default).props "support" := by
      rw [if_pos hlen2] at hc2
      exact of_decide_eq_true hc2
    have hWsup : lookupP (replaceAt (t.children.getD p default) ps
        (fun nd => wrapIntermediate nd (sogShell t) [])).props "support"
        = lookupP (t.children.getD p default).props "support" := by
      cases ps with
      | nil =>
          rw [replaceAt_nil]
          exact wrapIntermediate_support _ _ hcs
      | cons j rest =>
          rw [replaceAt_cons]
          rfl
    have hsupBot : lookupP (lastDescend (sogT2 t (p :: ps)) (ps.length + 1)).props "support"
        = lookupP (t.children.getD p default).props "support" := by
      rw [hbot]
      simp only [ETree.props_node, List.append_nil]
      rw [(lookupP_swapProps ["dist", "support"] [] _ "support" (by decide)).1,
        if_pos (by decide)]
      exact hWsup
    have hp2 : p < 2 := by rw [hlen2] at hp; exact hp
    obtain ⟨c0, c1, hch⟩ := List.length_eq_two.mp hlen2
    have hsupEq : lookupP (lastDescend (sogT2 t (p :: ps)) (ps.length + 1)).props "support"
        = lookupP ((t.children.eraseIdx p).getD 0 default).props "support" := by
      rw [hsupBot, hch]
      interval_cases p
      · simpa [hch] using hc2'
      · simpa [hch] using hc2'.symm
    have hpath : lastPathIdx (sogT2 t (p :: ps)) (ps.length + 1)
        = 1 :: lastPathIdx junk ps.length := by
      rw [lastPathIdx_succ, hshape]
      rfl
    have hvpath : validPath (sogT2 t (p :: ps))
        (lastPathIdx (sogT2 t (p :: ps)) (ps.length + 1)) = true := by
      apply validPath_lastPathIdx
      intro m hm
      exact rehangAll_chain_ne [] ps (sogT0 t (p :: ps)) p
        (validPath_sogT0 t _ p ps rfl hv) m (Nat.lt_succ_iff.mp hm)
    unfold joinBranchAt
    rw [subtreeAt_lastPathIdx]
    rw [if_neg (fun hne => hne hguard), hbotch,
      if_neg (fun hcontra => hcontra.2.2 (by rw [hsupEq]))]
    refine ⟨_, rfl, ?_, ?_, ?_⟩
    · rw [hpath, replaceAt_cons, hshape]
      rfl
    · rw [hpath, replaceAt_cons]
      simp only [ETree.children_node]
      rw [getD_set_ne _ _ _ _ (by omega), hshape]
      rfl
    · rw [sumDists_replaceAt _ _ _ hvpath, subtreeAt_lastPathIdx,
        sumDists_joinedChild _ hguard, sub_add_cancel_q, hsumT2]
  · rw [if_neg hguard]
    refine ⟨_, rfl, ?_, ?_, hsumT2⟩
    · rw [hshape]
      rfl
    · rw [hshape]
      rfl

/-! ## `insert_intermediate` / `join_branch` as inverses (claim C5). -/

theorem set_getD_self {α : Type} [Inhabited α] (l : List α) : ∀ (i : ℕ), i < l.length →
    l.set i (l.getD i default) = l := by
  induction l with
  | nil => intro i h; simp at h
  | cons c cs ih =>
      intro i h
      cases i with
      | zero => simp
      | succ i =>
          simp only [List.length_cons, Nat.succ_lt_succ_iff] at h
          simp only [List.getD_cons_succ, List.set_cons_succ]
          rw [ih i h]

/-- The copy loop of `insert_intermediate` keeps a key's value when every
copied occurrence of that key carries the same value. -/
theorem copyFold_lookup_stable (src : Props) (prs : List String) (k : String) (v : ℚ)
    (hsrc : lookupP src k = none ∨ lookupP src k = some v) :
    ∀ acc : Props, lookupP acc k = some v →
    lookupP (prs.foldl (fun acc pr =>
      match lookupP src pr with
      | some w => setP acc pr w
      | none => acc) acc) k = some v := by
  induction prs with
  | nil => intro acc hacc; simpa using hacc
  | cons pr prs ih =>
      intro acc hacc
      simp only [List.foldl_cons]
      by_cases hpr : pr = k
      · subst hpr
        rcases hsrc with h | h
        · rw [h]
          exact ih acc hacc
        · rw [h]
          exact ih _ (by rw [lookupP_setP])
      · cases hval : lookupP src pr
        · exact ih acc hacc
        · exact ih _ (by rw [lookupP_setP_ne _ _ _ _ hpr]; exact hacc)

theorem wrapIntermediate_dist (nd mid : ETree) (b : List String) (d : ℚ)
    (hd : lookupP nd.props "dist" = some d) :
    lookupP (wrapIntermediate nd mid b).props "dist" = some (d / 2) := by
  unfold wrapIntermediate
  rw [hd]
  simp only [ETree.props_node]
  exact copyFold_lookup_stable _ _ _ _
    (Or.inr (by rw [lookupP_setP])) _ (by rw [lookupP_setP])

theorem wrapIntermediate_support_some (nd mid : ETree) (b : List String) (v : ℚ)
    (hs : lookupP nd.props "support" = some v) :
    lookupP (wrapIntermediate nd mid b).props "support" = some v := by
  unfold wrapIntermediate
  cases hd : lookupP nd.props "dist" <;>
    simp only [ETree.props_node, List.foldl_cons]
  · rw [hs]
    exact copyFold_lookup_stable _ _ _ _ (Or.inr hs) _ (by rw [lookupP_setP])
  · rw [lookupP_setP_ne _ _ _ _ dist_ne_support, hs]
    exact copyFold_lookup_stable _ _ _ _
      (Or.inr (by rw [lookupP_setP_ne _ _ _ _ dist_ne_support]; exact hs)) _
      (by rw [lookupP_setP])

/-- `insert_intermediate(node, newNode, bprops)` followed by
`join_branch(newNode)`, at slot `i` of the parent: the tree is restored
exactly, provided the node carries a `dist` and the inserted node starts
childless. -/
theorem insert_join_inverse (up : ETree) (i : ℕ) (newNode : ETree) (bprops : List String)
    (hi : i < up.children.length) (d : ℚ)
    (hd : lookupP (up.children.getD i default).props "dist" = some d)
    (hleaf : newNode.children = []) :
    joinBranchAt (replaceAt up [i] (fun nd => wrapIntermediate nd newNode bprops)) [i]
      = .ok up := by
  have hrepl : replaceAt up [i] (fun nd => wrapIntermediate nd newNode bprops) =
      .node up.name up.props
        (up.children.set i (wrapIntermediate (up.children.getD i default) newNode bprops)) := by
    rw [replaceAt_cons]
    rfl
  have hsub : subtreeAt (replaceAt up [i] (fun nd => wrapIntermediate nd newNode bprops)) [i]
      = wrapIntermediate (up.children.getD i default) newNode bprops := by
    rw [hrepl]
    simp only [subtreeAt_cons, subtreeAt_nil, ETree.children_node]
    exact getD_set_self _ _ _ hi
  have hwch : (wrapIntermediate (up.children.getD i default) newNode bprops).children
      = [halvedOutgroup (up.children.getD i default)] :=
    wrapIntermediate_children _ _ _ hleaf
  have hhalv : halvedOutgroup (up.children.getD i default) =
      .node (up.children.getD i default).name
        (setP (up.children.getD i default).props "dist" (d / 2))
        (up.children.getD i default).children := by
    unfold halvedOutgroup
    rw [hd]
  have hwd := wrapIntermediate_dist (up.children.getD i default) newNode bprops d hd
  unfold joinBranchAt
  simp only [hsub, hwch]
  rw [if_neg (by simp)]
  rw [if_neg ?hsup]
  case hsup =>
    intro hcon
    obtain ⟨h1, h2, h3⟩ := hcon
    cases hσ : lookupP (up.children.getD i default).props "support" with
    | none =>
        rw [List.getD_cons_zero, hhalv] at h2
        simp only [ETree.props_node] at h2
        rw [lookupP_setP_ne _ _ _ _ dist_ne_support, hσ] at h2
        simp at h2
    | some v =>
        apply h3
        rw [List.getD_cons_zero, hhalv]
        simp only [ETree.props_node]
        rw [lookupP_setP_ne _ _ _ _ dist_ne_support, hσ,
          wrapIntermediate_support_some _ _ _ _ hσ]
  · -- the result of the splice
    congr 1
    rw [hrepl, replaceAt_cons]
    simp only [ETree.children_node]
    rw [getD_set_self _ _ _ hi, replaceAt_nil, List.set_set]
    unfold joinedChild
    simp only [hwch, hwd, List.getD_cons_zero, hhalv, ETree.props_node, ETree.children_node,
      ETree.name_node, lookupP_setP, Option.getD_some, setP_setP]
    have hdsum : d / 2 + d / 2 = d := by ring
    rw [hdsum, setP_lookup_self _ _ _ hd, ETree.eta, set_getD_self _ _ hi, ETree.eta]

/-! ## `move` (claim C6). -/

theorem validPath_append (q1 : List ℕ) : ∀ (t : ETree) (q2 : List ℕ),
    validPath t (q1 ++ q2) = (validPath t q1 && validPath (subtreeAt t q1) q2) := by
  induction q1 with
  | nil => intro t q2; simp
  | cons a as ih =>
      intro t q2
      simp only [List.cons_append, validPath_cons, subtreeAt_cons, ih, Bool.and_assoc]

theorem move_ne_nil (t : ETree) (path : List ℕ) (shift : ℤ) (h : path ≠ []) :
    move t path shift = .ok (replaceAt t path.dropLast (fun parent =>
      let i := path.getLastD 0
      let j := (((i : ℤ) + shift) % (parent.children.length : ℤ)).toNat
      .node parent.name parent.props
        ((parent.children.set i (parent.children.getD j default)).set j
          (parent.children.getD i default)))) := by
  cases path with
  | nil => exact absurd rfl h
  | cons a as => rfl

theorem move_root (t : ETree) (shift : ℤ) :
    move t [] shift = .error ("cannot move the root", t) := rfl

/-- After `move`, the node sits at index `(i + shift) % n` among its
(unchanged number of) siblings. -/
theorem move_lands (t : ETree) (qp : List ℕ) (i : ℕ) (shift : ℤ)
    (hv : validPath t (qp ++ [i]) = true) :
    ∃ res, move t (qp ++ [i]) shift = .ok res ∧
      (subtreeAt res qp).children.getD
          ((((i : ℤ) + shift) % (((subtreeAt t qp).children.length : ℕ) : ℤ)).toNat) default
        = (subtreeAt t qp).children.getD i default ∧
      (subtreeAt res qp).children.length = (subtreeAt t qp).children.length := by
  rw [validPath_append] at hv
  simp only [Bool.and_eq_true] at hv
  obtain ⟨hv1, hv2⟩ := hv
  have hi : i < (subtreeAt t qp).children.length := by
    simp only [validPath_cons, Bool.and_eq_true, decide_eq_true_eq] at hv2
    exact hv2.1
  have hn : (0 : ℤ) < ((subtreeAt t qp).children.length : ℤ) := by
    exact_mod_cast Nat.pos_of_ne_zero (by omega)
  have hj : (((i : ℤ) + shift) % ((subtreeAt t qp).children.length : ℤ)).toNat
      < (subtreeAt t qp).children.length := by
    have hnonneg : 0 ≤ ((i : ℤ) + shift) % ((subtreeAt t qp).children.length : ℤ) :=
      Int.emod_nonneg _ (by omega)
    have hlt : ((i : ℤ) + shift) % ((subtreeAt t qp).children.length : ℤ)
        < ((subtreeAt t qp).children.length : ℤ) := Int.emod_lt_of_pos _ hn
    omega
  refine ⟨_, move_ne_nil t (qp ++ [i]) shift (by simp), ?_, ?_⟩
  · rw [List.dropLast_concat, List.getLastD_concat,
      subtreeAt_replaceAt qp t _ hv1]
    simp only [ETree.children_node]
    rw [getD_set_self _ _ _ (by simpa [List.length_set] using hj)]
  · rw [List.dropLast_concat, subtreeAt_replaceAt qp t _ hv1]
    simp [List.length_set]

/-! ## Traversal walker (`Walker` / `walk`). -/

/-- `q` extends `p`: `p` is a leading segment of `q` (the node at `q` lies
in the subtree of the node at `p`; equal paths count). -/
def pathExtends (q p : List ℕ) : Prop := ∃ r, q = p ++ r

mutual
/-- Event sequence of the source's `walk` generator over the subtree whose
`node_id` is `path`: `(id, true)` is the first-visit event, `(id, false)`
the second (post-children) event.  `prune id = true` models the caller
setting `it.descend = False` while handling the first-visit event of that
node, upon which `walk` runs `it.go_back()` and continues.  Leaves get
only the first-visit event (`it.node.is_leaf` is checked before
`descend`). -/
def walkEvents (prune : List ℕ → Bool) : List ℕ → ETree → List (List ℕ × Bool)
  | path, .node _ _ cs =>
      if cs.isEmpty then [(path, true)]
      else if prune path then [(path, true)]
      else (path, true) :: (walkChildren prune path 0 cs ++ [(path, false)])
/-- The `has_unvisited_branches`/`add_next_branch` loop: walk the children
left to right, the `nch` counter giving each child's position. -/
def walkChildren (prune : List ℕ → Bool) : List ℕ → ℕ → List ETree → List (List ℕ × Bool)
  | _, _, [] => []
  | path, i, c :: cs =>
      walkEvents prune (path ++ [i]) c ++ walkChildren prune path (i + 1) cs
end

/-! ## `ladderize`. -/

/-- The ladderize distance of one node
(`1` if topological, else `props.get('dist', 1)`). -/
def ldist (topological : Bool) (t : ETree) : ℚ :=
  if topological then 1 else (lookupP t.props "dist").getD 1

/-- Maximum of a list of rationals (`0` for `[]`, never used there). -/
def maxQ : List ℚ → ℚ
  | [] => 0
  | [a] => a
  | a :: b :: l => max a (maxQ (b :: l))

mutual
/-- The per-node size used by `ladderize`'s sort key: the node's own
distance plus, for internal nodes, the largest child size. -/
def lsize (topological : Bool) : ETree → ℚ
  | .node n ps cs =>
      if cs.isEmpty then ldist topological (.node n ps cs)
      else ldist topological (.node n ps cs) + lsizeMax topological cs
def lsizeMax (topological : Bool) : List ETree → ℚ
  | [] => 0
  | [c] => lsize topological c
  | c :: c' :: cs => max (lsize topological c) (lsizeMax topological (c' :: cs))
end

/-- `ladderize`'s sort key: `(sizes[node], len(node.children))`. -/
def lkey (topological : Bool) (t : ETree) : ℚ × ℕ :=
  (lsize topological t, t.children.length)

/-- Strict ascending comparison on keys. -/
def pairLt (a b : ℚ × ℕ) : Bool :=
  decide (a.1 < b.1 ∨ (a.1 = b.1 ∧ a.2 < b.2))

/-- The comparison `ladderize` sorts with (`reverse` flips it, exactly as
Python's stable `list.sort(key=..., reverse=...)` does). -/
def ladderLt (topological reverse : Bool) (a b : ETree) : Bool :=
  if reverse then pairLt (lkey topological b) (lkey topological a)
  else pairLt (lkey topological a) (lkey topological b)

/-- Stable insertion: the new element goes after every element it is not
strictly below. -/
def insertS {α : Type} (lt : α → α → Bool) (a : α) : List α → List α
  | [] => [a]
  | b :: bs => if lt a b then a :: b :: bs else b :: insertS lt a bs

/-- Stable sort (models Python's stable `list.sort`). -/
def stableSort {α : Type} (lt : α → α → Bool) (xs : List α) : List α :=
  xs.foldl (fun acc x => insertS lt x acc) []

/-- `ladderize(tree, topological, reverse)`: postorder pass sorting every
internal node's children by `(size, number of children)`. -/
def ladderize (topological reverse : Bool) : ETree → ETree
  | .node n ps cs =>
      if cs.isEmpty then .node n ps cs
      else .node n ps
        (stableSort (ladderLt topological reverse)
          (cs.attach.map (fun x => ladderize topological reverse x.1)))
termination_by t => sizeOf t
decreasing_by
  have h := List.sizeOf_lt_of_mem x.2
  simp only [ETree.node.sizeOf_spec]
  omega

/-! ## `to_ultrametric` and the size cache (`update_size` / `get_size`). -/

mutual
/-- `update_size` computed functionally: `(sumdists, nleaves)` where
`sumdists` is the distance (`dist` defaulting to 0 at the root and 1
elsewhere) to the farthest leaf and `nleaves` the leaf count (min 1). -/
def usize (isRoot : Bool) : ETree → ℚ × ℚ
  | .node _ ps cs =>
      ((lookupP ps "dist").getD (if isRoot then 0 else 1) + (usizeL cs).1,
       max 1 (usizeL cs).2)
/-- `get_size(nodes)`: running `max` of child `sumdists` (from 0) and sum
of child leaf counts. -/
def usizeL : List ETree → ℚ × ℚ
  | [] => (0, 0)
  | c :: cs => (max (usize false c).1 (usizeL cs).1, (usize false c).2 + (usizeL cs).2)
end

mutual
/-- `any(node.dist is None for node in tree.traverse())`. -/
def anyNoneDist : ETree → Bool
  | .node _ ps cs => (lookupP ps "dist").isNone || anyNoneDistL cs
def anyNoneDistL : List ETree → Bool
  | [] => false
  | c :: cs => anyNoneDist c || anyNoneDistL cs
end

mutual
/-- `for node in tree.traverse(): node.dist = 1 if node.up else 0`. -/
def setAllDists (isRoot : Bool) : ETree → ETree
  | .node n ps cs => .node n (setP ps "dist" (if isRoot then 0 else 1)) (setAllDistsL cs)
def setAllDistsL : List ETree → List ETree
  | [] => []
  | c :: cs => setAllDists false c :: setAllDistsL cs
end

mutual
/-- The rescaling loop of `to_ultrametric`: for every node with positive
`dist`, multiply it by `(dist_full - d) / node.size[0]`, where `d` is the
(already rescaled) distance accumulated on the strict ancestors (`acc`)
and `node.size[0]` is the size computed before the loop.  (A `dist` of
`None` cannot reach this loop in the source — the repair phase has
replaced them all — so reading it as 0 here is unreachable-faithful.) -/
def rescale (full : ℚ) : ℚ → Bool → ETree → ETree
  | acc, isRoot, .node n ps cs =>
      let s := (usize isRoot (.node n ps cs)).1
      let d0 := (lookupP ps "dist").getD 0
      let dnew := if 0 < d0 then d0 * ((full - acc) / s) else d0
      .node n (if 0 < d0 then setP ps "dist" dnew else ps)
        (rescaleL full (acc + dnew) cs)
def rescaleL (full : ℚ) : ℚ → List ETree → List ETree
  | _, [] => []
  | acc, c :: cs => rescale full acc false c :: rescaleL full acc cs
end

/-- Steps 1–3 of `to_ultrametric`: default the root `dist` to 0, measure
`dist_full`, and if topological mode is requested, the tree has
non-positive depth, or any `dist` is missing, reset every `dist` to 1
(0 at the root), falling back to the recomputed depth when the original
was non-positive.  Returns `(dist_full, tree)` as they enter the
rescaling loop. -/
def ultraPhase (t : ETree) (topological : Bool) : ℚ × ETree :=
  let t1 : ETree := .node t.name (setP t.props "dist" ((lookupP t.props "dist").getD 0)) t.children
  let full := (usize true t1).1
  let repair := topological || decide (full ≤ 0) || anyNoneDist t1
  let t2 := if repair then setAllDists true t1 else t1
  let full2 := if repair then (if 0 < full then full else (usize true t2).1) else full
  (full2, t2)

/-- `to_ultrametric(tree, topological)`. -/
def to_ultrametric (t : ETree) (topological : Bool) : ETree :=
  rescale (ultraPhase t topological).1 0 true (ultraPhase t topological).2

mutual
/-- Every leaf carries a positive `dist`. -/
def leavesPosAux : ETree → Bool
  | .node _ ps [] =>
      match lookupP ps "dist" with
      | some d => decide (0 < d)
      | none => false
  | .node _ _ (c :: cs) => leavesPosAuxL (c :: cs)
def leavesPosAuxL : List ETree → Bool
  | [] => true
  | c :: cs => leavesPosAux c && leavesPosAuxL cs
end

/-! ## `common_ancestor`.  Nodes are addressed by `(tree id, path)`; two
nodes of different trees (disconnected structures) share no lineage. -/

/-- A node reference in a forest: which tree, and the path inside it. -/
structure FNode where
  tid : ℕ
  path : List ℕ
deriving DecidableEq

/-- All leading segments of a path, shortest first. -/
def ancPathsAsc : List ℕ → List (List ℕ)
  | [] => [[]]
  | a :: as => [] :: (ancPathsAsc as).map (a :: ·)

/-- `node.lineage()`: the node itself, then its ancestors up to the root. -/
def lineage (x : FNode) : List FNode :=
  ((ancPathsAsc x.path).reverse).map (fun q => ⟨x.tid, q⟩)

/-- One narrowing step: the first entry of `curr`'s lineage that appears in
`other`'s lineage. -/
def narrowCA (curr other : FNode) : Option FNode :=
  (lineage curr).find? (fun y => decide (y ∈ lineage other))

/-- The `for node in nodes[1:]` loop of `common_ancestor`.  When `curr`
becomes `None` with nodes still to process, the next iteration evaluates
`None.lineage()` — an `AttributeError` in the source, an `error` here. -/
def caLoop : FNode → List FNode → Except String (Option FNode)
  | curr, [] => .ok (some curr)
  | curr, n :: ns =>
      match narrowCA curr n with
      | some c => caLoop c ns
      | none =>
          match ns with
          | [] => .ok none
          | _ :: _ => .error "AttributeError"

/-- `common_ancestor(nodes)`. -/
def common_ancestor (nodes : List FNode) : Except String (Option FNode) :=
  match nodes with
  | [] => .ok none
  | n0 :: rest => caLoop n0 rest

/-- Longest common leading segment of two paths. -/
def lcp : List ℕ → List ℕ → List ℕ
  | a :: as, b :: bs => if a = b then a :: lcp as bs else []
  | _, _ => []

/-! ## Stable-sort lemmas (for `ladderize`). -/

theorem insertS_perm {α : Type} (lt : α → α → Bool) (a : α) (l : List α) :
    List.Perm (insertS lt a l) (a :: l) := by
  induction l with
  | nil => simp [insertS]
  | cons b bs ih =>
      by_cases h : lt a b
      · simp [insertS, h]
      · simp only [insertS, if_neg h]
        exact (List.Perm.cons b ih).trans (List.Perm.swap a b bs)

theorem stableSort_perm {α : Type} (lt : α → α → Bool) (xs : List α) :
    List.Perm (stableSort lt xs) xs := by
  suffices h : ∀ acc, List.Perm (xs.foldl (fun acc x => insertS lt x acc) acc) (acc ++ xs) by
    simpa using h []
  induction xs with
  | nil => intro acc; simp
  | cons x xs ih =>
      intro acc
      simp only [List.foldl_cons]
      refine (ih (insertS lt x acc)).trans ?_
      have h1 : List.Perm (insertS lt x acc ++ xs) ((x :: acc) ++ xs) :=
        List.Perm.append_right xs (insertS_perm lt x acc)
      exact h1.trans List.perm_middle.symm

theorem insertS_append_of_all {α : Type} (lt : α → α → Bool) (a : α) (l : List α)
    (h : ∀ b ∈ l, lt a b = false) : insertS lt a l = l ++ [a] := by
  induction l with
  | nil => simp [insertS]
  | cons b bs ih =>
      have hb : lt a b = false := h b (by simp)
      simp only [insertS, hb, Bool.false_eq_true, if_false, List.cons_append,
        List.cons.injEq, true_and]
      exact ih (fun c hc => h c (by simp [hc]))

theorem insertS_pairwise {α : Type} (lt : α → α → Bool)
    (hasym : ∀ a b, lt a b = true → lt b a = false)
    (htr : ∀ a b c, lt a b = true → lt c b = false → lt c a = false)
    (a : α) (l : List α) (hl : l.Pairwise (fun u v => lt v u = false)) :
    (insertS lt a l).Pairwise (fun u v => lt v u = false) := by
  induction l with
  | nil => simp [insertS]
  | cons b bs ih =>
      rcases List.pairwise_cons.mp hl with ⟨hb, hbs⟩
      by_cases h : lt a b
      · simp only [insertS, if_pos h]
        refine List.Pairwise.cons ?_ hl
        intro c hc
        rcases List.mem_cons.mp hc with rfl | hc
        · exact hasym a c h
        · exact htr a b c h (hb c hc)
      · simp only [insertS, if_neg h]
        refine List.Pairwise.cons ?_ (ih hbs)
        intro c hc
        have hc' : c ∈ a :: bs := (insertS_perm lt a bs).mem_iff.mp hc
        rcases List.mem_cons.mp hc' with rfl | hc'
        · exact Bool.eq_false_iff.mpr h
        · exact hb c hc'

theorem stableSort_pairwise {α : Type} (lt : α → α → Bool)
    (hasym : ∀ a b, lt a b = true → lt b a = false)
    (htr : ∀ a b c, lt a b = true → lt c b = false → lt c a = false)
    (xs : List α) :
    (stableSort lt xs).Pairwise (fun u v => lt v u = false) := by
  suffices h : ∀ acc, acc.Pairwise (fun u v => lt v u = false) →
      (xs.foldl (fun acc x => insertS lt x acc) acc).Pairwise (fun u v => lt v u = false) by
    exact h [] (by simp)
  induction xs with
  | nil => intro acc hacc; simpa using hacc
  | cons x xs ih =>
      intro acc hacc
      simp only [List.foldl_cons]
      exact ih _ (insertS_pairwise lt hasym htr x acc hacc)

theorem stableSort_of_pairwise {α : Type} (lt : α → α → Bool) (xs : List α)
    (h : xs.Pairwise (fun u v => lt v u = false)) : stableSort lt xs = xs := by
  have hgen : ∀ (ys acc : List α), (acc ++ ys).Pairwise (fun u v => lt v u = false) →
      ys.foldl (fun acc x => insertS lt x acc) acc = acc ++ ys := by
    intro ys
    induction ys with
    | nil => intro acc _; simp
    | cons x xs ih =>
        intro acc hacc
        simp only [List.foldl_cons]
        have hcross : ∀ b ∈ acc, lt x b = false := by
          intro b hb
          rcases List.pairwise_append.mp hacc with ⟨_, _, hc⟩
          exact hc b hb x (by simp)
        rw [insertS_append_of_all lt x acc hcross, ih (acc ++ [x]) (by simpa using hacc)]
        simp
  simpa using hgen xs [] (by simpa using h)

/-! ## Key-order facts for `ladderize`'s comparison. -/

theorem pairLt_asym (a b : ℚ × ℕ) : pairLt a b = true → pairLt b a = false := by
  simp only [pairLt, decide_eq_true_eq, decide_eq_false_iff_not]
  rintro (h | ⟨he, h⟩) <;> rintro (h' | ⟨he', h'⟩) <;> linarith

theorem pairLt_tr1 (a b c : ℚ × ℕ) :
    pairLt a b = true → pairLt c b = false → pairLt c a = false := by
  simp only [pairLt, decide_eq_true_eq, decide_eq_false_iff_not]
  intro h1 h2
  rintro (h' | ⟨he', h'⟩) <;> rcases h1 with h | ⟨he, h⟩ <;>
    exact h2 (by first
      | exact Or.inl (by linarith)
      | exact Or.inr ⟨by linarith, by omega⟩)

theorem pairLt_tr2 (a b c : ℚ × ℕ) :
    pairLt a b = true → pairLt a c = false → pairLt b c = false := by
  simp only [pairLt, decide_eq_true_eq, decide_eq_false_iff_not]
  intro h1 h2
  rintro (h' | ⟨he', h'⟩) <;> rcases h1 with h | ⟨he, h⟩ <;>
    exact h2 (by first
      | exact Or.inl (by linarith)
      | exact Or.inr ⟨by linarith, by omega⟩)

theorem ladderLt_asym (topo rev : Bool) :
    ∀ a b, ladderLt topo rev a b = true → ladderLt topo rev b a = false := by
  intro a b
  cases rev <;> simp only [ladderLt, if_true, if_false, Bool.false_eq_true] <;>
    exact pairLt_asym _ _

theorem ladderLt_tr (topo rev : Bool) :
    ∀ a b c, ladderLt topo rev a b = true → ladderLt topo rev c b = false →
      ladderLt topo rev c a = false := by
  intro a b c
  cases rev <;> simp only [ladderLt, if_true, if_false, Bool.false_eq_true]
  · exact pairLt_tr1 _ _ _
  · exact pairLt_tr2 _ _ _

/-! ## Induction over trees (member-wise). -/

def treeInd {P : ETree → Prop}
    (h : ∀ (n : String) (ps : Props) (cs : List ETree), (∀ c ∈ cs, P c) → P (.node n ps cs)) :
    ∀ t, P t
  | .node n ps cs => h n ps cs (fun c _hc => treeInd h c)
termination_by t => sizeOf t
decreasing_by
  have := List.sizeOf_lt_of_mem _hc
  simp only [ETree.node.sizeOf_spec]
  omega

/-! ## `ladderize`: idempotence (claim C7) and frame (claim C10). -/

theorem ladderize_leaf (topo rev : Bool) (n : String) (ps : Props) :
    ladderize topo rev (.node n ps []) = .node n ps [] := by
  simp [ladderize]

theorem ladderize_node (topo rev : Bool) (n : String) (ps : Props) (cs : List ETree)
    (h : cs ≠ []) : ladderize topo rev (.node n ps cs) =
      .node n ps (stableSort (ladderLt topo rev) (cs.map (ladderize topo rev))) := by
  rw [ladderize]
  rw [if_neg (by simpa using h)]
  rw [List.attach_map_val cs (ladderize topo rev)]

theorem ladderize_idem (topo rev : Bool) :
    ∀ t, ladderize topo rev (ladderize topo rev t) = ladderize topo rev t := by
  intro t
  induction t using treeInd with
  | _ n ps cs ih =>
      by_cases hcs : cs = []
      · subst hcs
        rw [ladderize_leaf, ladderize_leaf]
      · rw [ladderize_node _ _ _ _ _ hcs]
        have hSlen : (stableSort (ladderLt topo rev) (cs.map (ladderize topo rev))).length
            = cs.length := by
          rw [(stableSort_perm _ _).length_eq, List.length_map]
        have hSne : stableSort (ladderLt topo rev) (cs.map (ladderize topo rev)) ≠ [] := by
          intro h0
          rw [h0] at hSlen
          exact hcs (List.length_eq_zero.mp hSlen.symm)
        rw [ladderize_node _ _ _ _ _ hSne]
        congr 1
        have hfix : (stableSort (ladderLt topo rev) (cs.map (ladderize topo rev))).map
            (ladderize topo rev) = stableSort (ladderLt topo rev) (cs.map (ladderize topo rev)) := by
          have hmem : ∀ x ∈ stableSort (ladderLt topo rev) (cs.map (ladderize topo rev)),
              ladderize topo rev x = x := by
            intro x hx
            have hx' : x ∈ cs.map (ladderize topo rev) := (stableSort_perm _ _).mem_iff.mp hx
            obtain ⟨c, hc, rfl⟩ := List.mem_map.mp hx'
            exact ih c hc
          exact (List.map_congr_left hmem).trans (List.map_id _)
        rw [hfix]
        exact stableSort_of_pairwise _ _
          (stableSort_pairwise _ (ladderLt_asym topo rev) (ladderLt_tr topo rev) _)

/-- `t₂` is `t₁` with, at every node, the same name and properties and the
same children up to a permutation of their order (each child related
recursively).  This is exactly "only the order of child sequences
changed": node set, parent/child memberships, `dist`, `support`, name and
all other properties are untouched. -/
inductive ChildPerm : ETree → ETree → Prop where
  | mk : ∀ (n : String) (ps : Props) (cs cs' cs2 : List ETree),
      List.Forall₂ ChildPerm cs cs' → List.Perm cs' cs2 →
      ChildPerm (.node n ps cs) (.node n ps cs2)

theorem childPerm_ladderize (topo rev : Bool) : ∀ t, ChildPerm t (ladderize topo rev t) := by
  intro t
  induction t using treeInd with
  | _ n ps cs ih =>
      by_cases hcs : cs = []
      · subst hcs
        rw [ladderize_leaf]
        exact ChildPerm.mk n ps [] [] [] List.Forall₂.nil (List.Perm.refl [])
      · rw [ladderize_node _ _ _ _ _ hcs]
        refine ChildPerm.mk n ps cs (cs.map (ladderize topo rev)) _ ?_ ?_
        · have hgen : ∀ l : List ETree, (∀ c ∈ l, ChildPerm c (ladderize topo rev c)) →
              List.Forall₂ ChildPerm l (l.map (ladderize topo rev)) := by
            intro l hl
            induction l with
            | nil => exact List.Forall₂.nil
            | cons c l ihl =>
                exact List.Forall₂.cons (hl c (by simp))
                  (ihl fun c' hc' => hl c' (by simp [hc']))
          exact hgen cs ih
        · exact (stableSort_perm _ _).symm

/-! ## Walker lemmas (claim C4). -/

theorem walkEvents_node (prune : List ℕ → Bool) (path : List ℕ) (n : String) (ps : Props)
    (cs : List ETree) :
    walkEvents prune path (.node n ps cs) =
      if cs.isEmpty then [(path, true)]
      else if prune path then [(path, true)]
      else (path, true) :: (walkChildren prune path 0 cs ++ [(path, false)]) := by
  rw [walkEvents]

theorem walkChildren_nil (prune : List ℕ → Bool) (path : List ℕ) (i : ℕ) :
    walkChildren prune path i [] = [] := by
  rw [walkChildren]

theorem walkChildren_cons (prune : List ℕ → Bool) (path : List ℕ) (i : ℕ) (c : ETree)
    (cs : List ETree) :
    walkChildren prune path i (c :: cs) =
      walkEvents prune (path ++ [i]) c ++ walkChildren prune path (i + 1) cs := by
  rw [walkChildren]

theorem mem_walkChildren (prune : List ℕ → Bool) (path : List ℕ) (e : List ℕ × Bool) :
    ∀ (cs : List ETree) (i : ℕ), e ∈ walkChildren prune path i cs →
    ∃ k, k < cs.length ∧ e ∈ walkEvents prune (path ++ [i + k]) (cs.getD k default) := by
  intro cs
  induction cs with
  | nil => intro i h; rw [walkChildren_nil] at h; simp at h
  | cons c cs ih =>
      intro i h
      rw [walkChildren_cons] at h
      rcases List.mem_append.mp h with h | h
      · exact ⟨0, by simp, by simpa using h⟩
      · obtain ⟨k, hk, hmem⟩ := ih (i + 1) h
        refine ⟨k + 1, by simpa using hk, ?_⟩
        have harith : i + 1 + k = i + (k + 1) := by omega
        rw [harith] at hmem
        simpa using hmem

/-- Post-visit events are only produced for nodes the caller did not
prune. -/
theorem walkEvents_no_post_of_prune (prune : List ℕ → Bool) :
    ∀ t, ∀ (path q : List ℕ), (q, false) ∈ walkEvents prune path t → prune q = false := by
  intro t
  induction t using treeInd with
  | _ n ps cs ih =>
      intro path q hmem
      rw [walkEvents_node] at hmem
      by_cases hcs : cs.isEmpty
      · rw [if_pos hcs] at hmem
        simp at hmem
      · rw [if_neg hcs] at hmem
        by_cases hp : prune path
        · rw [if_pos hp] at hmem
          simp at hmem
        · rw [if_neg hp] at hmem
          rcases List.mem_cons.mp hmem with h | h
          · exact absurd (congrArg Prod.snd h) (by simp)
          · rcases List.mem_append.mp h with h | h
            · obtain ⟨k, hk, hmem'⟩ := mem_walkChildren prune path _ cs 0 h
              have hin : cs.getD k default ∈ cs := by
                rw [List.getD_eq_getElem cs default hk]
                exact List.getElem_mem hk
              exact ih _ hin _ _ hmem'
            · have : q = path := by
                have := List.mem_singleton.mp h
                exact congrArg Prod.fst this
              subst this
              exact Bool.eq_false_iff.mpr hp

/-- Every event's `node_id` is the id of a node of the tree: the walk base
extended by a valid path. -/
theorem walkEvents_valid (prune : List ℕ → Bool) :
    ∀ t, ∀ (path q : List ℕ) (b : Bool), (q, b) ∈ walkEvents prune path t →
    ∃ r, q = path ++ r ∧ validPath t r = true := by
  intro t
  induction t using treeInd with
  | _ n ps cs ih =>
      intro path q b hmem
      rw [walkEvents_node] at hmem
      by_cases hcs : cs.isEmpty
      · rw [if_pos hcs] at hmem
        have : q = path := congrArg Prod.fst (List.mem_singleton.mp hmem)
        exact ⟨[], by simp [this]⟩
      · rw [if_neg hcs] at hmem
        by_cases hp : prune path
        · rw [if_pos hp] at hmem
          have : q = path := congrArg Prod.fst (List.mem_singleton.mp hmem)
          exact ⟨[], by simp [this]⟩
        · rw [if_neg hp] at hmem
          rcases List.mem_cons.mp hmem with h | h
          · have hqp : q = path := congrArg Prod.fst h
            exact ⟨[], by simp [hqp], by simp⟩
          · rcases List.mem_append.mp h with h | h
            · obtain ⟨k, hk, hmem'⟩ := mem_walkChildren prune path _ cs 0 h
              have hin : cs.getD k default ∈ cs := by
                rw [List.getD_eq_getElem cs default hk]
                exact List.getElem_mem hk
              obtain ⟨r, hq, hv⟩ := ih _ hin _ _ _ hmem'
              refine ⟨k :: r, ?_, ?_⟩
              · rw [hq]
                simp
              · simp only [validPath_cons, ETree.children_node, Bool.and_eq_true,
                  decide_eq_true_eq]
                exact ⟨hk, hv⟩
            · have : q = path := congrArg Prod.fst (List.mem_singleton.mp h)
              exact ⟨[], by simp [this]⟩

theorem set_isEmpty {α : Type} (l : List α) (i : ℕ) (x : α) :
    (l.set i x).isEmpty = l.isEmpty := by
  cases l <;> cases i <;> simp

theorem walkChildren_set (prune : List ℕ → Bool) (path : List ℕ) (W : ETree) :
    ∀ (cs : List ETree) (i x : ℕ),
    walkEvents prune (path ++ [i + x]) W = walkEvents prune (path ++ [i + x]) (cs.getD x default) →
    walkChildren prune path i (cs.set x W) = walkChildren prune path i cs := by
  intro cs
  induction cs with
  | nil => intro i x _; simp
  | cons c cs ih =>
      intro i x hW
      cases x with
      | zero =>
          rw [List.getD_cons_zero, Nat.add_zero] at hW
          simp only [List.set_cons_zero, walkChildren_cons]
          rw [hW]
      | succ x =>
          rw [List.getD_cons_succ] at hW
          simp only [List.set_cons_succ, walkChildren_cons]
          congr 1
          apply ih (i + 1) x
          have harith : i + (x + 1) = i + 1 + x := by omega
          rw [harith] at hW
          exact hW

/-- Pruning a node produces exactly the traversal of the tree in which
that node's children have been removed: the walker continues with the
next sibling or ancestor as if the pruned node were a leaf. -/
theorem walkEvents_chop (prune : List ℕ → Bool) :
    ∀ (rel : List ℕ) (t : ETree) (path : List ℕ), prune (path ++ rel) = true →
    walkEvents prune path (replaceAt t rel (fun s => .node s.name s.props [])) =
      walkEvents prune path t := by
  intro rel
  induction rel with
  | nil =>
      intro t path hp
      rw [List.append_nil] at hp
      cases t with
      | node n ps cs =>
          rw [replaceAt_nil]
          simp only [ETree.name_node, ETree.props_node, ETree.children_node]
          rw [walkEvents_node, walkEvents_node]
          simp [hp]
  | cons x rest ih =>
      intro t path hp
      cases t with
      | node n ps cs =>
          rw [replaceAt_cons]
          simp only [ETree.children_node, ETree.name_node, ETree.props_node]
          rw [walkEvents_node, walkEvents_node, set_isEmpty]
          by_cases hcs : cs.isEmpty
          · rw [if_pos hcs, if_pos hcs]
          · rw [if_neg hcs, if_neg hcs]
            by_cases hpp : prune path
            · rw [if_pos hpp, if_pos hpp]
            · rw [if_neg hpp, if_neg hpp]
              have hchildren : walkChildren prune path 0
                  (cs.set x (replaceAt (cs.getD x default) rest
                    (fun s => .node s.name s.props []))) = walkChildren prune path 0 cs := by
                apply walkChildren_set
                rw [Nat.zero_add]
                apply ih
                simpa using hp
              rw [hchildren]

/-! ## `to_ultrametric` (claim C3). -/

theorem leafDepthsFrom_leaf (acc : ℚ) (n : String) (ps : Props) :
    leafDepthsFrom acc (.node n ps []) = [(n, acc + (lookupP ps "dist").getD 0)] := by
  rw [leafDepthsFrom]

theorem leafDepthsFrom_cons (acc : ℚ) (n : String) (ps : Props) (c : ETree) (cs : List ETree) :
    leafDepthsFrom acc (.node n ps (c :: cs)) =
      leafDepthsFromL (acc + (lookupP ps "dist").getD 0) (c :: cs) := by
  rw [leafDepthsFrom]

theorem leafDepthsFromL_nil (acc : ℚ) : leafDepthsFromL acc [] = [] := by
  rw [leafDepthsFromL]

theorem leafDepthsFromL_cons (acc : ℚ) (c : ETree) (cs : List ETree) :
    leafDepthsFromL acc (c :: cs) = leafDepthsFrom acc c ++ leafDepthsFromL acc cs := by
  rw [leafDepthsFromL]

theorem rescaleL_nil (full acc : ℚ) : rescaleL full acc [] = [] := by
  rw [rescaleL]

theorem rescaleL_cons (full acc : ℚ) (c : ETree) (cs : List ETree) :
    rescaleL full acc (c :: cs) = rescale full acc false c :: rescaleL full acc cs := by
  rw [rescaleL]

theorem usizeL_nil : usizeL [] = (0, 0) := by rw [usizeL]

theorem usize_leaf (isRoot : Bool) (n : String) (ps : Props) :
    (usize isRoot (.node n ps [])).1 =
      (lookupP ps "dist").getD (if isRoot then 0 else 1) := by
  rw [usize, usizeL_nil]
  simp

theorem leavesPosAuxL_mem : ∀ (l : List ETree), leavesPosAuxL l = true →
    ∀ c ∈ l, leavesPosAux c = true := by
  intro l
  induction l with
  | nil => intro _ c hc; simp at hc
  | cons c l ih =>
      intro h c' hc'
      rw [leavesPosAuxL] at h
      simp only [Bool.and_eq_true] at h
      rcases List.mem_cons.mp hc' with rfl | hc'
      · exact h.1
      · exact ih h.2 c' hc'

/-- After `rescale`, the new `dist` value at a node is exactly what gets
added to the children's ancestor-sum. -/
theorem rescale_shape (full acc : ℚ) (isRoot : Bool) (n : String) (ps : Props)
    (cs : List ETree) :
    ∃ ps2, rescale full acc isRoot (.node n ps cs) =
      .node n ps2 (rescaleL full (acc + (lookupP ps2 "dist").getD 0) cs) := by
  rw [rescale]
  by_cases h : 0 < (lookupP ps "dist").getD 0
  · refine ⟨setP ps "dist" ((lookupP ps "dist").getD 0 *
      ((full - acc) / (usize isRoot (.node n ps cs)).1)), ?_⟩
    simp only [h, if_true, lookupP_setP, Option.getD_some]
  · exact ⟨ps, by simp only [h, if_false]⟩

/-- Key step for the ultrametric invariant: when every leaf of a subtree
carries a positive `dist`, rescaling makes every leaf's cumulative
distance exactly `full`, whatever was accumulated above it. -/
theorem rescale_leaf_depths (full : ℚ) :
    ∀ (nd : ETree), leavesPosAux nd = true →
    ∀ (acc : ℚ), ∀ v ∈ (leafDepthsFrom acc (rescale full acc false nd)).map Prod.snd,
    v = full := by
  intro nd
  induction nd using treeInd with
  | _ n ps cs ih =>
      intro hpos acc v hv
      cases cs with
      | nil =>
          rw [leavesPosAux] at hpos
          cases hlk : lookupP ps "dist" with
          | none => rw [hlk] at hpos; simp at hpos
          | some d =>
              rw [hlk] at hpos
              simp only [decide_eq_true_eq] at hpos
              rw [rescale] at hv
              rw [usize_leaf] at hv
              simp only [hlk, Option.getD_some, if_false, Bool.false_eq_true] at hv
              rw [if_pos hpos, rescaleL_nil, leafDepthsFrom_leaf] at hv
              rw [lookupP_setP] at hv
              simp only [List.map_cons, List.map_nil, List.mem_singleton,
                Option.getD_some] at hv
              have hne : d ≠ 0 := ne_of_gt hpos
              rw [hv, if_pos hpos]
              field_simp
      | cons c cs' =>
          rw [leavesPosAux] at hpos
          obtain ⟨ps2, hshape⟩ := rescale_shape full acc false n ps (c :: cs')
          rw [hshape] at hv
          rw [rescaleL_cons, leafDepthsFrom_cons, ← rescaleL_cons] at hv
          have hlist : ∀ (l : List ETree), (∀ c' ∈ l, leavesPosAux c' = true) →
              (∀ c' ∈ l, leavesPosAux c' = true → ∀ (acc' : ℚ),
                ∀ w ∈ (leafDepthsFrom acc' (rescale full acc' false c')).map Prod.snd,
                w = full) →
              ∀ (a : ℚ) w, w ∈ (leafDepthsFromL a (rescaleL full a l)).map Prod.snd →
              w = full := by
            intro l
            induction l with
            | nil =>
                intro _ _ a w hw
                rw [rescaleL_nil, leafDepthsFromL_nil] at hw
                simp at hw
            | cons c0 l0 ihl =>
                intro hl hrec a w hw
                rw [rescaleL_cons, leafDepthsFromL_cons] at hw
                rw [List.map_append] at hw
                rcases List.mem_append.mp hw with hw | hw
                · exact hrec c0 (by simp) (hl c0 (by simp)) a w hw
                · exact ihl (fun c' hc' => hl c' (by simp [hc']))
                    (fun c' hc' => hrec c' (by simp [hc'])) a w hw
          exact hlist (c :: cs') (leavesPosAuxL_mem _ hpos)
            (fun c' hc' hp' acc' => ih c' hc' hp' acc') _ v hv

/-! ## `common_ancestor` lemmas (claim C8). -/

theorem pathExtends_refl (p : List ℕ) : pathExtends p p := ⟨[], by simp⟩

theorem pathExtends_nil (p : List ℕ) : pathExtends p [] := ⟨p, rfl⟩

theorem pathExtends_trans (p q r : List ℕ) (h1 : pathExtends p q) (h2 : pathExtends q r) :
    pathExtends p r := by
  obtain ⟨s, rfl⟩ := h1
  obtain ⟨s', rfl⟩ := h2
  exact ⟨s' ++ s, by simp⟩

theorem nil_mem_ancPathsAsc (q : List ℕ) : [] ∈ ancPathsAsc q := by
  cases q <;> simp [ancPathsAsc]

theorem mem_ancPathsAsc : ∀ (p x : List ℕ), x ∈ ancPathsAsc p ↔ pathExtends p x := by
  intro p
  induction p with
  | nil =>
      intro x
      simp only [ancPathsAsc, List.mem_singleton]
      constructor
      · rintro rfl; exact pathExtends_nil []
      · rintro ⟨r, hr⟩
        cases x with
        | nil => rfl
        | cons a as => simp at hr
  | cons a as ih =>
      intro x
      simp only [ancPathsAsc, List.mem_cons, List.mem_map]
      constructor
      · rintro (rfl | ⟨y, hy, rfl⟩)
        · exact pathExtends_nil _
        · obtain ⟨r, hr⟩ := (ih y).mp hy
          exact ⟨r, by rw [List.cons_append, ← hr]⟩
      · rintro ⟨r, hr⟩
        cases x with
        | nil => exact Or.inl rfl
        | cons b bs =>
            simp only [List.cons_append, List.cons.injEq] at hr
            exact Or.inr ⟨bs, (ih bs).mpr ⟨r, hr.2⟩, by rw [hr.1]⟩

theorem find?_ext {α : Type} : ∀ (l : List α) (p q : α → Bool),
    (∀ x ∈ l, p x = q x) → l.find? p = l.find? q := by
  intro l
  induction l with
  | nil => intro p q _; simp
  | cons a l ih =>
      intro p q h
      rw [List.find?_cons, List.find?_cons, h a (by simp)]
      cases q a
      · exact ih p q (fun x hx => h x (by simp [hx]))
      · rfl

theorem lcp_nil_left (q : List ℕ) : lcp [] q = [] := by cases q <;> rfl

theorem lcp_nil_right (p : List ℕ) : lcp p [] = [] := by cases p <;> rfl

theorem lcp_cons (a b : ℕ) (as bs : List ℕ) :
    lcp (a :: as) (b :: bs) = if a = b then a :: lcp as bs else [] := rfl

theorem ancPathsAsc_reverse_cons (a : ℕ) (as : List ℕ) :
    (ancPathsAsc (a :: as)).reverse =
      ((ancPathsAsc as).reverse).map (a :: ·) ++ [[]] := by
  show ([] :: (ancPathsAsc as).map (a :: ·)).reverse = _
  rw [List.reverse_cons, List.map_reverse]

theorem findPref : ∀ (p q : List ℕ),
    ((ancPathsAsc p).reverse).find? (fun x => decide (x ∈ ancPathsAsc q))
      = some (lcp p q) := by
  intro p
  induction p with
  | nil =>
      intro q
      simp [ancPathsAsc, nil_mem_ancPathsAsc q, lcp_nil_left]
  | cons a as ih =>
      intro q
      rw [ancPathsAsc_reverse_cons, List.find?_append, List.find?_map]
      cases q with
      | nil =>
          have hnone : List.find? ((fun x => decide (x ∈ ancPathsAsc [])) ∘ (a :: ·))
              ((ancPathsAsc as).reverse) = none := by
            rw [List.find?_eq_none]
            intro x _
            simp [ancPathsAsc]
          rw [hnone]
          simp [ancPathsAsc, lcp_nil_right]
      | cons b bs =>
          by_cases hab : a = b
          · subst hab
            have hext : List.find? ((fun x => decide (x ∈ ancPathsAsc (a :: bs))) ∘ (a :: ·))
                ((ancPathsAsc as).reverse)
                = List.find? (fun x => decide (x ∈ ancPathsAsc bs))
                  ((ancPathsAsc as).reverse) := by
              apply find?_ext
              intro x _
              simp [ancPathsAsc]
            rw [hext, ih bs]
            simp [lcp_cons]
          · have hnone : List.find? ((fun x => decide (x ∈ ancPathsAsc (b :: bs))) ∘ (a :: ·))
                ((ancPathsAsc as).reverse) = none := by
              rw [List.find?_eq_none]
              intro x _
              simp only [Function.comp_apply, decide_eq_true_eq, ancPathsAsc,
                List.mem_cons, List.mem_map]
              rintro (hc | ⟨y, _, hc⟩)
              · exact List.cons_ne_nil a x hc
              · simp only [List.cons.injEq] at hc
                exact hab hc.1.symm
            rw [hnone]
            simp [ancPathsAsc, lcp_cons, hab, nil_mem_ancPathsAsc]

theorem narrowCA_same (T : ℕ) (pc pn : List ℕ) :
    narrowCA ⟨T, pc⟩ ⟨T, pn⟩ = some ⟨T, lcp pc pn⟩ := by
  unfold narrowCA lineage
  rw [List.find?_map]
  have hext : ((fun y => decide (y ∈ ((ancPathsAsc pn).reverse).map
        (fun q => (⟨T, q⟩ : FNode)))) ∘ (fun q => (⟨T, q⟩ : FNode)))
      = (fun x => decide (x ∈ ancPathsAsc pn)) := by
    funext x
    simp only [Function.comp_apply, decide_eq_decide, List.mem_map, List.mem_reverse]
    constructor
    · rintro ⟨y, hy, he⟩
      have hpath : y = x := congrArg FNode.path he
      rwa [hpath] at hy
    · intro hx
      exact ⟨x, hx, rfl⟩
  rw [hext, findPref]
  rfl

theorem narrowCA_ne (t1 t2 : ℕ) (p1 p2 : List ℕ) (h : t1 ≠ t2) :
    narrowCA ⟨t1, p1⟩ ⟨t2, p2⟩ = none := by
  unfold narrowCA lineage
  rw [List.find?_eq_none]
  intro y hy
  obtain ⟨q, -, rfl⟩ := List.mem_map.mp hy
  simp only [decide_eq_true_eq, List.mem_map]
  rintro ⟨q', -, he⟩
  exact h (congrArg FNode.tid he).symm

theorem caLoop_nil (curr : FNode) : caLoop curr [] = .ok (some curr) := rfl

theorem caLoop_cons_some (curr c : FNode) (n : FNode) (ns : List FNode)
    (h : narrowCA curr n = some c) : caLoop curr (n :: ns) = caLoop c ns := by
  have hstep : caLoop curr (n :: ns) = (match narrowCA curr n with
      | some c' => caLoop c' ns
      | none => (match ns with
                 | [] => Except.ok none
                 | _ :: _ => Except.error "AttributeError")) := rfl
  rw [hstep, h]

theorem caLoop_cons_none_nil (curr : FNode) (n : FNode)
    (h : narrowCA curr n = none) : caLoop curr [n] = .ok none := by
  have hstep : caLoop curr [n] = (match narrowCA curr n with
      | some c' => caLoop c' []
      | none => Except.ok none) := rfl
  rw [hstep, h]

theorem caLoop_cons_none_more (curr : FNode) (n m : FNode) (ns : List FNode)
    (h : narrowCA curr n = none) :
    caLoop curr (n :: m :: ns) = .error "AttributeError" := by
  have hstep : caLoop curr (n :: m :: ns) = (match narrowCA curr n with
      | some c' => caLoop c' (m :: ns)
      | none => Except.error "AttributeError") := rfl
  rw [hstep, h]

theorem caLoop_same (T : ℕ) : ∀ (rest : List (List ℕ)) (pc : List ℕ),
    caLoop ⟨T, pc⟩ (rest.map (fun q => ⟨T, q⟩)) = .ok (some ⟨T, rest.foldl lcp pc⟩) := by
  intro rest
  induction rest with
  | nil => intro pc; rfl
  | cons q rest ih =>
      intro pc
      rw [List.map_cons, caLoop_cons_some _ _ _ _ (narrowCA_same T pc q), ih]
      rfl

theorem lcp_extends_left : ∀ (p q : List ℕ), pathExtends p (lcp p q) := by
  intro p
  induction p with
  | nil => intro q; rw [lcp_nil_left]; exact pathExtends_refl []
  | cons a as ih =>
      intro q
      cases q with
      | nil => rw [lcp_nil_right]; exact pathExtends_nil _
      | cons b bs =>
          rw [lcp_cons]
          by_cases hab : a = b
          · subst hab
            rw [if_pos rfl]
            obtain ⟨r, hr⟩ := ih bs
            exact ⟨r, by rw [List.cons_append, ← hr]⟩
          · rw [if_neg hab]
            exact pathExtends_nil _

theorem lcp_extends_right : ∀ (p q : List ℕ), pathExtends q (lcp p q) := by
  intro p
  induction p with
  | nil => intro q; rw [lcp_nil_left]; exact pathExtends_nil _
  | cons a as ih =>
      intro q
      cases q with
      | nil => rw [lcp_nil_right]; exact pathExtends_refl []
      | cons b bs =>
          rw [lcp_cons]
          by_cases hab : a = b
          · subst hab
            rw [if_pos rfl]
            obtain ⟨r, hr⟩ := ih bs
            exact ⟨r, by rw [List.cons_append, ← hr]⟩
          · rw [if_neg hab]
            exact pathExtends_nil _

theorem extends_lcp : ∀ (c p q : List ℕ), pathExtends p c → pathExtends q c →
    pathExtends (lcp p q) c := by
  intro c
  induction c with
  | nil => intro p q _ _; exact pathExtends_nil _
  | cons a c' ih =>
      intro p q hp hq
      obtain ⟨r, rfl⟩ := hp
      obtain ⟨s, rfl⟩ := hq
      simp only [List.cons_append]
      rw [lcp_cons, if_pos rfl]
      obtain ⟨u, hu⟩ := ih (c' ++ r) (c' ++ s) ⟨r, rfl⟩ ⟨s, rfl⟩
      exact ⟨u, by rw [List.cons_append, ← hu]⟩

theorem foldl_lcp_spec (rest : List (List ℕ)) : ∀ (pc : List ℕ),
    pathExtends pc (rest.foldl lcp pc) ∧
    (∀ x ∈ rest, pathExtends x (rest.foldl lcp pc)) ∧
    (∀ c, pathExtends pc c → (∀ x ∈ rest, pathExtends x c) →
      pathExtends (rest.foldl lcp pc) c) := by
  induction rest with
  | nil =>
      intro pc
      exact ⟨pathExtends_refl pc, by simp, fun c h _ => h⟩
  | cons q rest ih =>
      intro pc
      obtain ⟨h1, h2, h3⟩ := ih (lcp pc q)
      refine ⟨?_, ?_, ?_⟩
      · exact pathExtends_trans _ _ _ (lcp_extends_left pc q) h1
      · intro x hx
        rcases List.mem_cons.mp hx with rfl | hx
        · exact pathExtends_trans _ _ _ (lcp_extends_right pc x) h1
        · exact h2 x hx
      · intro c hpc hall
        exact h3 c (extends_lcp c pc q hpc (hall q (by simp)))
          (fun x hx => hall x (by simp [hx]))

/-! ## Concrete trees used by witnesses and counterexamples. -/

/-- `(A:1,(B:2,C:3)X:4)r;` -/
def tEx : ETree :=
  .node "r" []
    [.node "A" [("dist", 1)] [],
     .node "X" [("dist", 4)] [.node "B" [("dist", 2)] [], .node "C" [("dist", 3)] []]]

/-- What `set_outgroup` at `B` turns `tEx` into: `(B:1,(C:3,A:5)X:1)r;`. -/
def tExRerooted : ETree :=
  .node "r" []
    [.node "B" [("dist", 1)] [],
     .node "X" [("dist", 1)] [.node "C" [("dist", 3)] [], .node "A" [("dist", 5)] []]]

/-- `(A:0,B:2)r;` — a leaf with a zero branch length. -/
def tZ : ETree :=
  .node "r" [] [.node "A" [("dist", 0)] [], .node "B" [("dist", 2)] []]

/-- What `to_ultrametric` leaves of `tZ`: the zero-length leaf branch is
skipped by the `node.dist > 0` guard, so `A` stays at depth 0 while `B`
sits at depth 2. -/
def tZafter : ETree :=
  .node "r" [("dist", 0)] [.node "A" [("dist", 0)] [], .node "B" [("dist", 2)] []]

/-- `((a,b)x,c)r;` for the walker. -/
def tW : ETree :=
  .node "r" [] [.node "x" [] [.node "a" [] [], .node "b" [] []], .node "c" [] []]

/-- Prune exactly the node with `node_id = (0,)`. -/
def pruneAt0 : List ℕ → Bool := fun p => decide (p = [0])

/-- A tree whose root violates the consistency precondition (it has a
non-zero `dist`). -/
def tBad : ETree := .node "r" [("dist", 5)] [.node "A" [] []]

/-! ## Claim theorems. -/

/-- C1, counterexample: rerooting `(A:1,(B:2,C:3)X:4)r` at `B` moves leaf
`B` from root-to-leaf distance 6 to root-to-leaf distance 1, so the
claim's "total summed branch length along any root-to-leaf path is
unchanged" is false on the code. -/
theorem C1_counterexample :
    set_outgroup tEx [1, 0] [] = Except.ok tExRerooted ∧
    leafDepthsNamed tEx = [("A", 1), ("B", 6), ("C", 7)] ∧
    leafDepthsNamed tExRerooted = [("B", 1), ("C", 4), ("A", 6)] ∧
    ¬ (∀ (nm : String) (d d' : ℚ), (nm, d) ∈ leafDepthsNamed tEx →
        (nm, d') ∈ leafDepthsNamed tExRerooted → d = d') := by
  have h1 : set_outgroup tEx [1, 0] [] = Except.ok tExRerooted := by
    norm_num [set_outgroup, replaceAt, replaceAt.go, rehangAll, rehang, swapProps,
      wrapIntermediate, joinBranchAt, joinedChild, lastDescend, lastPathIdx, rootConsistent,
      subtreeAt, lookupP, setP, eraseP, tEx, tExRerooted, dist_ne_support, support_ne_dist]
    intro h
    simp at h
  have h2 : leafDepthsNamed tEx = [("A", 1), ("B", 6), ("C", 7)] := by
    norm_num [leafDepthsNamed, leafDepthsFrom, leafDepthsFromL, tEx, lookupP]
  have h3 : leafDepthsNamed tExRerooted = [("B", 1), ("C", 4), ("A", 6)] := by
    norm_num [leafDepthsNamed, leafDepthsFrom, leafDepthsFromL, tExRerooted, lookupP]
  refine ⟨h1, h2, h3, ?_⟩
  intro hall
  have hB := hall "B" 6 1 (by rw [h2]; simp) (by rw [h3]; simp)
  norm_num at hB

/-- C1 (amended): after a successful `set_outgroup` on a valid non-root
outgroup of a consistent-rooted tree, the outgroup (with its `dist`
halved) is the first child of the new root, the former root node is
preserved — as the tree's new root, not as an intermediate — and the
total branch length of the whole tree (rather than each root-to-leaf path
sum, which does change) is unchanged. -/
theorem C1_set_outgroup (t : ETree) (p : ℕ) (ps : List ℕ)
    (hv : validPath t (p :: ps) = true) (hc : rootConsistent t [] = true) :
    ∃ res, set_outgroup t (p :: ps) [] = .ok res ∧
      res.children.getD 0 default = halvedOutgroup (subtreeAt t (p :: ps)) ∧
      res.name = t.name ∧
      sumDists res = sumDists t := by
  obtain ⟨res, h1, h2, h3, h4⟩ := set_outgroup_ok t p ps hv hc
  exact ⟨res, h1, h3, h2, h4⟩

/-- C1, witness at `tEx` rerooted on leaf `B`. -/
theorem C1_witness :
    ∃ res, set_outgroup tEx [1, 0] [] = .ok res ∧
      res.children.getD 0 default = halvedOutgroup (subtreeAt tEx [1, 0]) ∧
      res.name = tEx.name ∧
      sumDists res = sumDists tEx :=
  C1_set_outgroup tEx 1 [0] (by rfl) (by rfl)

/-- C2, counterexample: after rerooting `tEx` at `B`, the original root
node is the tree's root again, so the second `set_outgroup` on it raises
"cannot set the absolute tree root as outgroup" instead of restoring the
original root-to-leaf path lengths. -/
theorem C2_counterexample :
    set_outgroup tEx [1, 0] [] = Except.ok tExRerooted ∧
    set_outgroup tExRerooted [] [] =
      Except.error ("cannot set the absolute tree root as outgroup", tExRerooted) := by
  constructor
  · norm_num [set_outgroup, replaceAt, replaceAt.go, rehangAll, rehang, swapProps,
      wrapIntermediate, joinBranchAt, joinedChild, lastDescend, lastPathIdx, rootConsistent,
      subtreeAt, lookupP, setP, eraseP, tEx, tExRerooted, dist_ne_support, support_ne_dist]
    intro h
    simp at h
  · rfl

/-- C2 (amended): `set_outgroup` keeps the original root node as the new
root, so the "round trip" second call — rerooting at the original root
reference, which now has path `[]` — fails its non-root precondition with
the tree left unchanged; the original per-leaf path lengths are not
restored. -/
theorem C2_roundtrip (t : ETree) (p : ℕ) (ps : List ℕ)
    (hv : validPath t (p :: ps) = true) (hc : rootConsistent t [] = true) :
    ∃ res, set_outgroup t (p :: ps) [] = .ok res ∧ res.name = t.name ∧
      ∃ msg, set_outgroup res [] [] = .error (msg, res) := by
  obtain ⟨res, h1, h2, -, -⟩ := set_outgroup_ok t p ps hv hc
  refine ⟨res, h1, h2, ?_⟩
  unfold set_outgroup
  by_cases h : rootConsistent res []
  · exact ⟨"cannot set the absolute tree root as outgroup",
      by rw [if_neg (by simp [h]), if_pos rfl]⟩
  · exact ⟨"root inconsistency assertion failed", by rw [if_pos (by simp [h])]⟩

/-- C2, witness at `tEx`. -/
theorem C2_witness :
    ∃ res, set_outgroup tEx [1, 0] [] = .ok res ∧ res.name = tEx.name ∧
      ∃ msg, set_outgroup res [] [] = .error (msg, res) :=
  C2_roundtrip tEx 1 [0] (by rfl) (by rfl)

/-- List-level version of `rescale_leaf_depths`: from any accumulated
distance, every leaf depth inside the rescaled forest equals `full`. -/
theorem rescaleL_leaf_depths (full : ℚ) (l : List ETree)
    (hl : ∀ c ∈ l, leavesPosAux c = true) :
    ∀ (a : ℚ) (v : ℚ), v ∈ (leafDepthsFromL a (rescaleL full a l)).map Prod.snd → v = full := by
  induction l with
  | nil =>
      intro a v hv
      rw [rescaleL_nil, leafDepthsFromL_nil] at hv
      simp at hv
  | cons c l ih =>
      intro a v hv
      rw [rescaleL_cons, leafDepthsFromL_cons, List.map_append] at hv
      rcases List.mem_append.mp hv with hv | hv
      · exact rescale_leaf_depths full c (hl c (by simp)) a v hv
      · exact ih (fun c' hc' => hl c' (by simp [hc'])) a v hv

/-- C3, counterexample: on `(A:0,B:2)r` the rescaling loop skips the
zero-length branch of leaf `A` (the `node.dist > 0` guard), so after
`to_ultrametric` leaf `A` is at distance 0 from the root while leaf `B`
is at distance 2: the leaves are not equidistant. -/
theorem C3_counterexample :
    to_ultrametric tZ false = tZafter ∧
    leafDepthsNamed tZafter = [("A", 0), ("B", 2)] ∧
    ¬ (∀ v ∈ (leafDepthsNamed (to_ultrametric tZ false)).map Prod.snd,
        ∀ w ∈ (leafDepthsNamed (to_ultrametric tZ false)).map Prod.snd, v = w) := by
  have h1 : to_ultrametric tZ false = tZafter := by
    norm_num [to_ultrametric, ultraPhase, rescale, rescaleL, usize, usizeL, anyNoneDist,
      anyNoneDistL, setAllDists, setAllDistsL, tZ, tZafter, lookupP, setP,
      dist_ne_support, support_ne_dist]
  have h2 : leafDepthsNamed tZafter = [("A", 0), ("B", 2)] := by
    norm_num [leafDepthsNamed, leafDepthsFrom, leafDepthsFromL, tZafter, lookupP]
  refine ⟨h1, h2, ?_⟩
  intro hall
  have h0 : (0 : ℚ) ∈ (leafDepthsNamed (to_ultrametric tZ false)).map Prod.snd := by
    rw [h1, h2]; simp
  have h2' : (2 : ℚ) ∈ (leafDepthsNamed (to_ultrametric tZ false)).map Prod.snd := by
    rw [h1, h2]; simp
  have := hall 0 h0 2 h2'
  norm_num at this

/-- C3 (amended): when every branch is positive after the
topology-normalisation phase — the precondition under which the
`node.dist > 0` guard never skips a branch — `to_ultrametric` does make
all root-to-leaf distance sums equal. -/
theorem C3_to_ultrametric (t : ETree) (topo : Bool)
    (hpos : leavesPosAuxL ((ultraPhase t topo).2).children = true) :
    ∀ v ∈ (leafDepthsNamed (to_ultrametric t topo)).map Prod.snd,
    ∀ w ∈ (leafDepthsNamed (to_ultrametric t topo)).map Prod.snd, v = w := by
  unfold to_ultrametric leafDepthsNamed
  cases hu : (ultraPhase t topo).2 with
  | node n2 ps2 cs2 =>
      rw [hu, ETree.children_node] at hpos
      cases cs2 with
      | nil =>
          obtain ⟨ps2', hshape⟩ := rescale_shape (ultraPhase t topo).1 0 true n2 ps2 []
          rw [hshape, rescaleL_nil, leafDepthsFrom_leaf]
          intro v hv w hw
          simp only [List.map_cons, List.map_nil, List.mem_singleton] at hv hw
          rw [hv, hw]
      | cons c cs' =>
          obtain ⟨ps2', hshape⟩ := rescale_shape (ultraPhase t topo).1 0 true n2 ps2 (c :: cs')
          rw [hshape, rescaleL_cons, leafDepthsFrom_cons, ← rescaleL_cons]
          intro v hv w hw
          have h1 := rescaleL_leaf_depths (ultraPhase t topo).1 (c :: cs')
            (leavesPosAuxL_mem _ hpos) _ v hv
          have h2 := rescaleL_leaf_depths (ultraPhase t topo).1 (c :: cs')
            (leavesPosAuxL_mem _ hpos) _ w hw
          rw [h1, h2]

/-- C3, witness at `tEx` (all branches positive). -/
theorem C3_witness :
    leavesPosAuxL ((ultraPhase tEx false).2).children = true ∧
    (∀ v ∈ (leafDepthsNamed (to_ultrametric tEx false)).map Prod.snd,
     ∀ w ∈ (leafDepthsNamed (to_ultrametric tEx false)).map Prod.snd, v = w) :=
  ⟨by
    norm_num [ultraPhase, usize, usizeL, anyNoneDist, anyNoneDistL, setAllDists, setAllDistsL,
      leavesPosAux, leavesPosAuxL, tEx, lookupP, setP],
   C3_to_ultrametric tEx false (by
    norm_num [ultraPhase, usize, usizeL, anyNoneDist, anyNoneDistL, setAllDists, setAllDistsL,
      leavesPosAux, leavesPosAuxL, tEx, lookupP, setP])⟩

/-- C4, counterexample: pruning at the internal node `x` (id `(0,)`) of
`((a,b)x,c)r` suppresses its descendants as claimed, but the walker's
`go_back` on a prune does NOT emit a post-visit event: `([0], false)` is
missing from the event stream, refuting "still emits the node's
post-visit event". -/
theorem C4_counterexample :
    walkEvents pruneAt0 [] tW = [([], true), ([0], true), ([1], true), ([], false)] ∧
    ([0], false) ∉ walkEvents pruneAt0 [] tW := by
  have h : walkEvents pruneAt0 [] tW = [([], true), ([0], true), ([1], true), ([], false)] := by
    simp [walkEvents, walkChildren, tW, pruneAt0]
  refine ⟨h, ?_⟩
  rw [h]
  decide

/-- C4 (amended): if the caller prunes at a valid node id `rel`, the
walker emits no event at any strict descendant of `rel`, emits NO
post-visit event at `rel` either (contrary to the claim's "still emits
the post-visit event"), and the whole event stream equals that of the
tree with the pruned node's children removed. -/
theorem C4_walk_prune (t : ETree) (prune : List ℕ → Bool) (rel : List ℕ)
    (hval : validPath t rel = true) (hprune : prune rel = true) :
    (∀ q b, (q, b) ∈ walkEvents prune [] t → ¬ (q ≠ rel ∧ pathExtends q rel)) ∧
    (rel, false) ∉ walkEvents prune [] t ∧
    walkEvents prune [] t =
      walkEvents prune [] (replaceAt t rel (fun s => .node s.name s.props [])) := by
  have hchop := walkEvents_chop prune rel t [] (by simpa using hprune)
  refine ⟨?_, ?_, hchop.symm⟩
  · intro q b hmem hbad
    obtain ⟨hne, s, hqs⟩ := hbad
    rw [← hchop] at hmem
    obtain ⟨r, hq, hvr⟩ := walkEvents_valid prune _ [] q b hmem
    rw [List.nil_append] at hq
    rw [← hq, hqs] at hvr
    cases s with
    | nil => exact hne (by rw [hqs, List.append_nil])
    | cons y rest =>
        rw [validPath_append] at hvr
        rw [subtreeAt_replaceAt rel t _ hval] at hvr
        simp only [Bool.and_eq_true] at hvr
        have hv2 := hvr.2
        simp only [validPath_cons, ETree.children_node, Bool.and_eq_true,
          decide_eq_true_eq, List.length_nil] at hv2
        omega
  · intro hmem
    have hp := walkEvents_no_post_of_prune prune t [] rel hmem
    rw [hprune] at hp
    simp at hp

/-- C4, witness: pruning at `x` in `((a,b)x,c)r`. -/
theorem C4_witness :
    (∀ q b, (q, b) ∈ walkEvents pruneAt0 [] tW → ¬ (q ≠ [0] ∧ pathExtends q [0])) ∧
    ([0], false) ∉ walkEvents pruneAt0 [] tW ∧
    walkEvents pruneAt0 [] tW =
      walkEvents pruneAt0 [] (replaceAt tW [0] (fun s => .node s.name s.props [])) :=
  C4_walk_prune tW pruneAt0 [0] (by rfl) (by rfl)

/-- C5: inserting an intermediate node above a child that has a `dist`
(via `insert_intermediate`, which halves the `dist` onto both nodes) and
then splicing the intermediate out (via `join_branch`, which re-adds the
dists) restores the original tree exactly — in particular the original
`dist` and the child's original slot in its parent's child sequence. -/
theorem C5_insert_join (up : ETree) (i : ℕ) (newNode : ETree) (bprops : List String)
    (hi : i < up.children.length) (d : ℚ)
    (hd : lookupP (up.children.getD i default).props "dist" = some d)
    (hleaf : newNode.children = []) :
    joinBranchAt (replaceAt up [i] (fun nd => wrapIntermediate nd newNode bprops)) [i]
      = .ok up :=
  insert_join_inverse up i newNode bprops hi d hd hleaf

/-- C5, witness: insert a fresh node above leaf `A` of `tEx`, then join
the branch; the original tree comes back. -/
theorem C5_witness :
    joinBranchAt (replaceAt tEx [0] (fun nd => wrapIntermediate nd (.node "m" [] []) [])) [0]
      = .ok tEx :=
  C5_insert_join tEx 0 (.node "m" [] []) [] (by decide) 1 (by rfl) (by rfl)

/-- C6: `move` fails on the root, and on a valid non-root node id
`qp ++ [i]` it succeeds, keeps the sibling count, and puts the node at
index `(i + shift) mod siblingCount`. -/
theorem C6_move (t : ETree) (qp : List ℕ) (i : ℕ) (shift : ℤ)
    (hv : validPath t (qp ++ [i]) = true) :
    (∀ (u : ETree) (s : ℤ), move u [] s = .error ("cannot move the root", u)) ∧
    ∃ res, move t (qp ++ [i]) shift = .ok res ∧
      (subtreeAt res qp).children.getD
          ((((i : ℤ) + shift) % (((subtreeAt t qp).children.length : ℕ) : ℤ)).toNat) default
        = (subtreeAt t qp).children.getD i default ∧
      (subtreeAt res qp).children.length = (subtreeAt t qp).children.length :=
  ⟨fun u s => move_root u s, move_lands t qp i shift hv⟩

/-- C6, witness: move leaf `B` (id `(1, 0)`) of `tEx` by one place. -/
theorem C6_witness :
    (∀ (u : ETree) (s : ℤ), move u [] s = .error ("cannot move the root", u)) ∧
    ∃ res, move tEx ([1] ++ [0]) 1 = .ok res ∧
      (subtreeAt res [1]).children.getD
          ((((0 : ℕ) + (1 : ℤ)) % (((subtreeAt tEx [1]).children.length : ℕ) : ℤ)).toNat) default
        = (subtreeAt tEx [1]).children.getD 0 default ∧
      (subtreeAt res [1]).children.length = (subtreeAt tEx [1]).children.length :=
  C6_move tEx [1] 0 1 (by rfl)

/-- C7: `ladderize` is idempotent — with the same arguments, applying it
to its own output changes nothing. -/
theorem C7_ladderize_idempotent (topo rev : Bool) (t : ETree) :
    ladderize topo rev (ladderize topo rev t) = ladderize topo rev t :=
  ladderize_idem topo rev t

/-- C8, counterexample: with three nodes from three disconnected trees,
the first narrowing step yields `None`, and the next loop iteration calls
`None.lineage()` — an `AttributeError` — instead of returning the
designated "none" result. -/
theorem C8_counterexample :
    common_ancestor [(⟨0, []⟩ : FNode), ⟨1, []⟩, ⟨2, []⟩] = .error "AttributeError" ∧
    common_ancestor [(⟨0, []⟩ : FNode), ⟨1, []⟩, ⟨2, []⟩] ≠ .ok none := by
  refine ⟨rfl, ?_⟩
  intro h
  have h2 : (Except.error "AttributeError" : Except String (Option FNode)) = .ok none :=
    (rfl : common_ancestor [(⟨0, []⟩ : FNode), ⟨1, []⟩, ⟨2, []⟩]
      = .error "AttributeError").symm.trans h
  cases h2

/-- C8 (amended): `common_ancestor` returns `none` on an empty input, and
on nodes of one tree it returns the deepest node whose path every input
path extends; when the input mixes two disconnected trees it returns
`none` only if the narrowing failure happens at the LAST node — with a
third node still to process it raises `AttributeError` instead of
returning the designated "none" result. -/
theorem C8_common_ancestor :
    common_ancestor ([] : List FNode) = .ok none ∧
    (∀ (T : ℕ) (p0 : List ℕ) (rest : List (List ℕ)),
      ∃ A, common_ancestor (⟨T, p0⟩ :: rest.map (fun q => ⟨T, q⟩)) = .ok (some ⟨T, A⟩) ∧
        (∀ x ∈ (⟨T, p0⟩ :: rest.map (fun q => (⟨T, q⟩ : FNode))),
          x.tid = T ∧ pathExtends x.path A) ∧
        (∀ c : List ℕ, pathExtends p0 c → (∀ q ∈ rest, pathExtends q c) →
          pathExtends A c)) ∧
    (∀ (a b : FNode), a.tid ≠ b.tid → common_ancestor [a, b] = .ok none) ∧
    (∀ (a b c : FNode) (ns : List FNode), a.tid ≠ b.tid →
      common_ancestor (a :: b :: c :: ns) = .error "AttributeError") := by
  refine ⟨rfl, ?_, ?_, ?_⟩
  · intro T p0 rest
    refine ⟨rest.foldl lcp p0, ?_, ?_, ?_⟩
    · show caLoop ⟨T, p0⟩ (rest.map (fun q => ⟨T, q⟩)) = _
      exact caLoop_same T rest p0
    · obtain ⟨s1, s2, -⟩ := foldl_lcp_spec rest p0
      intro x hx
      rcases List.mem_cons.mp hx with rfl | hx
      · exact ⟨rfl, s1⟩
      · obtain ⟨q, hq, rfl⟩ := List.mem_map.mp hx
        exact ⟨rfl, s2 q hq⟩
    · obtain ⟨-, -, s3⟩ := foldl_lcp_spec rest p0
      exact s3
  · intro a b hab
    obtain ⟨ta, pa⟩ := a
    obtain ⟨tb, pb⟩ := b
    show caLoop ⟨ta, pa⟩ [⟨tb, pb⟩] = .ok none
    exact caLoop_cons_none_nil _ _ (narrowCA_ne ta tb pa pb hab)
  · intro a b c ns hab
    obtain ⟨ta, pa⟩ := a
    obtain ⟨tb, pb⟩ := b
    show caLoop ⟨ta, pa⟩ (⟨tb, pb⟩ :: c :: ns) = .error "AttributeError"
    exact caLoop_cons_none_more _ _ c ns (narrowCA_ne ta tb pa pb hab)

/-- C8, witness: concrete two-tree and three-tree inputs. -/
theorem C8_witness :
    common_ancestor [(⟨0, []⟩ : FNode), ⟨1, []⟩] = .ok none ∧
    common_ancestor [(⟨0, []⟩ : FNode), ⟨1, []⟩, ⟨2, []⟩] = .error "AttributeError" :=
  ⟨C8_common_ancestor.2.2.1 ⟨0, []⟩ ⟨1, []⟩ (by decide),
   C8_common_ancestor.2.2.2 ⟨0, []⟩ ⟨1, []⟩ ⟨2, []⟩ [] (by decide)⟩

/-- C9: the mutating operations check their preconditions before mutating:
whenever `set_outgroup` (on a valid node id), `move`, `remove` or
`join_branch` fails, the tree state it leaves behind is exactly the input
tree.  For rerooting in particular, the root-consistency and non-root
checks fire before any mutation, and under them the late `join_branch`
asserts provably never fire. -/
theorem C9_no_partial_mutation :
    (∀ (t : ETree) (ps : List ℕ) (m : String) (s : ETree),
      validPath t ps = true →
      set_outgroup t ps [] = .error (m, s) → s = t) ∧
    (∀ (t : ETree) (q : List ℕ) (sh : ℤ) (m : String) (s : ETree),
      move t q sh = .error (m, s) → s = t) ∧
    (∀ (t : ETree) (q : List ℕ) (m : String) (s : ETree),
      removeNode t q = .error (m, s) → s = t) ∧
    (∀ (t : ETree) (q : List ℕ) (m : String) (s : ETree),
      joinBranchAt t q = .error (m, s) → s = t) := by
  refine ⟨?_, ?_, ?_, ?_⟩
  · intro t ps m s hv herr
    cases ps with
    | nil =>
        unfold set_outgroup at herr
        by_cases hc : rootConsistent t []
        · rw [if_neg (by simp [hc]), if_pos rfl] at herr
          simp only [Except.error.injEq, Prod.mk.injEq] at herr
          exact herr.2.symm
        · rw [if_pos (by simp [hc])] at herr
          simp only [Except.error.injEq, Prod.mk.injEq] at herr
          exact herr.2.symm
    | cons p ps' =>
        by_cases hc : rootConsistent t []
        · obtain ⟨res, hres, -, -, -⟩ := set_outgroup_ok t p ps' hv hc
          rw [hres] at herr
          cases herr
        · unfold set_outgroup at herr
          rw [if_pos (by simp [hc])] at herr
          simp only [Except.error.injEq, Prod.mk.injEq] at herr
          exact herr.2.symm
  · intro t q sh m s herr
    cases q with
    | nil =>
        rw [move_root] at herr
        simp only [Except.error.injEq, Prod.mk.injEq] at herr
        exact herr.2.symm
    | cons a as => simp [move] at herr
  · intro t q m s herr
    cases q with
    | nil =>
        simp only [removeNode, Except.error.injEq, Prod.mk.injEq] at herr
        exact herr.2.symm
    | cons a as => simp [removeNode] at herr
  · intro t q m s herr
    unfold joinBranchAt at herr
    dsimp only at herr
    split at herr
    · simp only [Except.error.injEq, Prod.mk.injEq] at herr
      exact herr.2.symm
    · split at herr
      · simp only [Except.error.injEq, Prod.mk.injEq] at herr
        exact herr.2.symm
      · cases herr

/-- C9, witness: rerooting a tree whose root has a non-zero `dist` fails
the root-consistency check and returns the input tree untouched. -/
theorem C9_witness :
    validPath tBad [0] = true ∧
    set_outgroup tBad [0] [] = .error ("root inconsistency assertion failed", tBad) ∧
    tBad = tBad :=
  ⟨by rfl, by rfl,
   C9_no_partial_mutation.1 tBad [0] "root inconsistency assertion failed" tBad
     (by rfl) (by rfl)⟩

/-- C10: `ladderize` only reorders each node's child sequence: every node
keeps its name and all its properties, and each node's new child list is a
permutation of the (recursively ladderized) old one. -/
theorem C10_ladderize_frame (topo rev : Bool) (t : ETree) :
    ChildPerm t (ladderize topo rev t) :=
  childPerm_ladderize topo rev t
